import Mathlib

/-!
Shallow embedding of the name-substitution compiler of `src/app.js`
(simple-chart): the identifier sanitizer, the unique-id allocator, the
quoted-field CSV splitter, the ER and flowchart preprocessors, and the
output name-restorer, together with proofs of the specification claims.

Strings are modelled as Lean `String` (a list of Unicode code points,
matching JavaScript `for..of` iteration); string lengths are counted in
code points.  JavaScript regular expressions are translated into explicit
scanning functions on `List Char`, following the engine's leftmost-match
and alternation-order semantics, which are worked out case by case in the
comments next to each matcher.
-/

namespace SimpleChart

/-- Whitespace characters, modelling the JS `\s` class and `String.trim`
for the character repertoire the app deals with. -/
def isWS (c : Char) : Bool :=
  c = ' ' || c = '\t' || c = '\n' || c = '\r' || c = '\x0b' || c = '\x0c'

/-- ASCII letters and digits: the JS character class `[a-zA-Z0-9]`. -/
def isAlnum (c : Char) : Bool :=
  ('a' ≤ c && c ≤ 'z') || ('A' ≤ c && c ≤ 'Z') || ('0' ≤ c && c ≤ '9')

/-- JS `\w`: ASCII letters, digits and underscore. -/
def isWordChar (c : Char) : Bool := isAlnum c || c = '_'

/-- First character of the JS identifier class `[a-zA-Z_]`. -/
def isIdStart (c : Char) : Bool :=
  ('a' ≤ c && c ≤ 'z') || ('A' ≤ c && c ≤ 'Z') || c = '_'

/-- `line.trim()` on the character list. -/
def trimChars (l : List Char) : List Char :=
  ((l.dropWhile isWS).reverse.dropWhile isWS).reverse

/-- Leading-whitespace run of a line: JS `line.match(/^(\s*)/)[1]`. -/
def indentOf (l : List Char) : List Char := l.takeWhile isWS

/-- Remove one leading occurrence of `c`, if present. -/
def dropLeadChar (c : Char) : List Char → List Char
  | [] => []
  | x :: xs => if x = c then xs else x :: xs

/-- Remove one trailing occurrence of `c`, if present. -/
def dropTrailChar (c : Char) (l : List Char) : List Char :=
  (dropLeadChar c l.reverse).reverse

/-- The JS idiom `s.replace(/^"|"$/g, "")`: strip at most one double quote
from each end (applied to `"` in the source; we keep the character
as a parameter so the identical `^_|_$` idiom of the sanitizer can reuse
it). -/
def stripEnds (c : Char) (l : List Char) : List Char :=
  dropTrailChar c (dropLeadChar c l)

/-- Collapse every run of the character `c` to a single occurrence:
the JS `s.replace(/c+/g, "c")`. -/
def collapseRuns (c : Char) : List Char → List Char
  | [] => []
  | x :: xs =>
    let r := collapseRuns c xs
    if x = c ∧ r.head? = some c then r else x :: r

/-- Transliteration table of `sanitizeName` (src/app.js lines 137-140):
German umlauts to digraphs and sharp s to ss; all other characters kept. -/
def translit (c : Char) : List Char :=
  if c = 'ä' then ['a', 'e']
  else if c = 'Ä' then ['A', 'e']
  else if c = 'ö' then ['o', 'e']
  else if c = 'Ö' then ['O', 'e']
  else if c = 'ü' then ['u', 'e']
  else if c = 'Ü' then ['U', 'e']
  else if c = 'ß' then ['s', 's']
  else [c]

/-- The cleaning pipeline of `sanitizeName` before the fallback: the four
successive `replace` calls of src/app.js lines 136-143.  The first three
transliteration replaces commute into a single character map because their
outputs are plain ASCII letters that no later transliteration touches. -/
def cleanChars (l : List Char) : List Char :=
  stripEnds '_'
    (collapseRuns '_'
      (((l.map translit).flatten).map (fun c => if isAlnum c then c else '_')))

/-- `sanitizeName` (src/app.js lines 135-145): clean, then fall back to
the fixed token when the result is empty (JS `s || "unnamed"`). -/
def sanitizeName (name : String) : String :=
  let s := cleanChars name.data
  if s.isEmpty then "unnamed" else String.mk s

/-- Decimal digit character, used for the allocator's numeric suffixes. -/
def decDigit (n : Nat) : Char := Char.ofNat (48 + n)

/-- Fuel-driven decimal writer: digits of `n`, most significant first. -/
def natToDecAux : Nat → Nat → List Char
  | 0, _ => []
  | f + 1, n =>
    if n < 10 then [decDigit n]
    else natToDecAux f (n / 10) ++ [decDigit (n % 10)]

/-- Decimal representation of a natural number, as produced by JS string
coercion of a nonnegative integer (`base + n++`). -/
def natToDec (n : Nat) : List Char := natToDecAux (n + 1) n

/-- Decimal reader, the left inverse of `natToDec`. -/
def decVal (l : List Char) : Nat :=
  l.foldl (fun a c => a * 10 + (c.toNat - 48)) 0

theorem decDigit_toNat {n : Nat} (h : n < 10) : (decDigit n).toNat = 48 + n := by
  interval_cases n <;> rfl

theorem decVal_append_one (l : List Char) (c : Char) :
    decVal (l ++ [c]) = decVal l * 10 + (c.toNat - 48) := by
  simp [decVal, List.foldl_append]

theorem decVal_natToDecAux : ∀ f n, n < f → decVal (natToDecAux f n) = n := by
  intro f
  induction f with
  | zero => intro n h; omega
  | succ f ih =>
    intro n h
    by_cases h10 : n < 10
    · simp [natToDecAux, h10, decVal, decDigit_toNat h10]
    · have hdiv : n / 10 < f := by
        have : n / 10 < n := Nat.div_lt_self (by omega) (by omega)
        omega
      have hmod : n % 10 < 10 := Nat.mod_lt _ (by omega)
      simp only [natToDecAux, h10, if_false]
      rw [decVal_append_one, ih _ hdiv, decDigit_toNat hmod]
      omega

theorem decVal_natToDec (n : Nat) : decVal (natToDec n) = n :=
  decVal_natToDecAux (n + 1) n (by omega)

theorem natToDec_injective : Function.Injective natToDec := by
  intro m n h
  have := decVal_natToDec m
  rw [h, decVal_natToDec] at this
  omega

theorem natToDecAux_ne_nil (f n : Nat) (h : n < f) : natToDecAux f n ≠ [] := by
  cases f with
  | zero => omega
  | succ f =>
    by_cases h10 : n < 10 <;> simp [natToDecAux, h10]

theorem natToDec_ne_nil (n : Nat) : natToDec n ≠ [] :=
  natToDecAux_ne_nil (n + 1) n (by omega)

/-! ### Shape properties of the sanitizer pipeline -/

/-- No two adjacent occurrences of `c`. -/
def noAdjPair (c : Char) : List Char → Bool
  | x :: y :: rest => !(x = c && y = c) && noAdjPair c (y :: rest)
  | _ => true

theorem noAdjPair_iff_chain {c : Char} {l : List Char} :
    noAdjPair c l = true ↔ List.Chain' (fun a b => ¬(a = c ∧ b = c)) l := by
  induction l with
  | nil => simp [noAdjPair]
  | cons x xs ih =>
    cases xs with
    | nil => simp [noAdjPair]
    | cons y rest =>
      rw [List.chain'_cons, ← ih]
      simp [noAdjPair, and_comm, Bool.and_eq_true, not_and]
      tauto

theorem mem_collapseRuns {c x : Char} {l : List Char}
    (h : x ∈ collapseRuns c l) : x ∈ l := by
  induction l with
  | nil => simp [collapseRuns] at h
  | cons a as ih =>
    simp only [collapseRuns] at h
    by_cases hc : a = c ∧ (collapseRuns c as).head? = some c
    · simp only [hc, if_true] at h
      exact List.mem_cons_of_mem _ (ih h)
    · simp only [hc, if_false, List.mem_cons] at h
      rcases h with h | h
      · exact h ▸ List.mem_cons_self _ _
      · exact List.mem_cons_of_mem _ (ih h)

theorem noAdjPair_collapseRuns (c : Char) (l : List Char) :
    noAdjPair c (collapseRuns c l) = true := by
  rw [noAdjPair_iff_chain]
  induction l with
  | nil => simp [collapseRuns]
  | cons a as ih =>
    simp only [collapseRuns]
    by_cases hc : a = c ∧ (collapseRuns c as).head? = some c
    · rw [if_pos hc]
      exact ih
    · rw [if_neg hc]
      refine List.chain'_cons'.mpr ⟨?_, ih⟩
      intro y hy hcontra
      exact hc ⟨hcontra.1, by rw [hy]; exact congrArg some hcontra.2⟩

theorem mem_dropLeadChar {c x : Char} {l : List Char}
    (h : x ∈ dropLeadChar c l) : x ∈ l := by
  cases l with
  | nil => simp [dropLeadChar] at h
  | cons a as =>
    by_cases ha : a = c <;> simp only [dropLeadChar, ha, if_true, if_false] at h
    · exact List.mem_cons_of_mem _ h
    · exact h

theorem mem_dropTrailChar {c x : Char} {l : List Char}
    (h : x ∈ dropTrailChar c l) : x ∈ l := by
  rw [dropTrailChar] at h
  exact List.mem_reverse.mp (mem_dropLeadChar (List.mem_reverse.mp h))

theorem mem_stripEnds {c x : Char} {l : List Char}
    (h : x ∈ stripEnds c l) : x ∈ l :=
  mem_dropLeadChar (mem_dropTrailChar h)

theorem dropTrailChar_cases (c : Char) (l : List Char) :
    dropTrailChar c l = l ∨ ∃ t, l = t ++ [c] ∧ dropTrailChar c l = t := by
  rcases hr : l.reverse with _ | ⟨x, xs⟩
  · left
    have : l = [] := by simpa using congrArg List.reverse hr
    simp [this, dropTrailChar, dropLeadChar]
  · have hl : l = xs.reverse ++ [x] := by
      have := congrArg List.reverse hr
      simpa using this
    by_cases hx : x = c
    · right
      exact ⟨xs.reverse, by rw [hl, hx], by simp [dropTrailChar, hr, dropLeadChar, hx]⟩
    · left
      simp [dropTrailChar, hr, dropLeadChar, hx, ← hl]

theorem head?_dropTrailChar {c x : Char} {l : List Char}
    (h : (dropTrailChar c l).head? = some x) : l.head? = some x := by
  rcases dropTrailChar_cases c l with heq | ⟨t, hl, heq⟩
  · rwa [heq] at h
  · rw [heq] at h
    cases t with
    | nil => simp at h
    | cons a as => simp at h ⊢; simp [hl, h]

theorem noAdjPair_append_left {c : Char} {l₁ l₂ : List Char}
    (h : noAdjPair c (l₁ ++ l₂) = true) : noAdjPair c l₁ = true := by
  rw [noAdjPair_iff_chain] at h ⊢
  exact (List.chain'_append.mp h).1

theorem noAdjPair_tail {c a : Char} {l : List Char}
    (h : noAdjPair c (a :: l) = true) : noAdjPair c l = true := by
  rw [noAdjPair_iff_chain] at h ⊢
  exact h.tail

theorem noAdjPair_reverse {c : Char} {l : List Char}
    (h : noAdjPair c l = true) : noAdjPair c l.reverse = true := by
  rw [noAdjPair_iff_chain] at h ⊢
  rw [List.chain'_reverse]
  refine List.Chain'.imp ?_ h
  intro a b hab hc
  exact hab ⟨hc.2, hc.1⟩

theorem head?_dropLeadChar_ne {c : Char} {l : List Char}
    (h : noAdjPair c l = true) : (dropLeadChar c l).head? ≠ some c := by
  cases l with
  | nil => simp [dropLeadChar]
  | cons a as =>
    by_cases ha : a = c
    · simp only [dropLeadChar, ha, if_true]
      cases as with
      | nil => simp
      | cons b bs =>
        simp only [List.head?_cons, ne_eq, Option.some.injEq]
        intro hb
        simp [noAdjPair, ha, hb] at h
    · simp [dropLeadChar, ha]

theorem noAdjPair_dropLeadChar {c : Char} {l : List Char}
    (h : noAdjPair c l = true) : noAdjPair c (dropLeadChar c l) = true := by
  cases l with
  | nil => simpa [dropLeadChar]
  | cons a as =>
    by_cases ha : a = c
    · simpa [dropLeadChar, ha] using noAdjPair_tail h
    · simpa [dropLeadChar, ha]

theorem noAdjPair_dropTrailChar {c : Char} {l : List Char}
    (h : noAdjPair c l = true) : noAdjPair c (dropTrailChar c l) = true := by
  rcases dropTrailChar_cases c l with heq | ⟨t, hl, heq⟩
  · rwa [heq]
  · rw [heq]
    exact noAdjPair_append_left (hl ▸ h)

theorem getLast?_dropTrailChar_ne {c : Char} {l : List Char}
    (h : noAdjPair c l = true) : (dropTrailChar c l).getLast? ≠ some c := by
  have : (dropTrailChar c l).getLast? = (dropLeadChar c l.reverse).head? := by
    rw [dropTrailChar, List.getLast?_reverse]
  rw [this]
  exact head?_dropLeadChar_ne (noAdjPair_reverse h)

theorem stripEnds_head_ne {c : Char} {l : List Char}
    (h : noAdjPair c l = true) : (stripEnds c l).head? ≠ some c := by
  intro hx
  exact head?_dropLeadChar_ne h (head?_dropTrailChar hx)

theorem stripEnds_getLast_ne {c : Char} {l : List Char}
    (h : noAdjPair c l = true) : (stripEnds c l).getLast? ≠ some c :=
  getLast?_dropTrailChar_ne (noAdjPair_dropLeadChar h)

theorem stripEnds_noAdjPair {c : Char} {l : List Char}
    (h : noAdjPair c l = true) : noAdjPair c (stripEnds c l) = true :=
  noAdjPair_dropTrailChar (noAdjPair_dropLeadChar h)

theorem cleanChars_safe {x : Char} {l : List Char} (h : x ∈ cleanChars l) :
    isAlnum x = true ∨ x = '_' := by
  have h1 := mem_collapseRuns (mem_stripEnds h)
  rcases List.mem_map.mp h1 with ⟨y, _, hy⟩
  by_cases hal : isAlnum y = true
  · left
    rwa [← hy, if_pos hal]
  · right
    rw [← hy, if_neg hal]

theorem cleanChars_head_ne (l : List Char) : (cleanChars l).head? ≠ some '_' :=
  stripEnds_head_ne (noAdjPair_collapseRuns _ _)

theorem cleanChars_getLast_ne (l : List Char) : (cleanChars l).getLast? ≠ some '_' :=
  stripEnds_getLast_ne (noAdjPair_collapseRuns _ _)

theorem cleanChars_noAdjPair (l : List Char) : noAdjPair '_' (cleanChars l) = true :=
  stripEnds_noAdjPair (noAdjPair_collapseRuns _ _)

/-! ### The JS `replaceAll` and substring test -/

/-- One left-to-right, non-overlapping replacement sweep; `fuel` is at
least the length of the scanned list at every call, so the `0, s` row
is never reached from `replaceAllChars`.  The top level only invokes this
with a non-empty pattern. -/
def replaceAllGo (pat rep : List Char) : Nat → List Char → List Char
  | _, [] => []
  | 0, s => s
  | f + 1, c :: cs =>
    if pat.isPrefixOf (c :: cs) then
      rep ++ replaceAllGo pat rep f (cs.drop (pat.length - 1))
    else c :: replaceAllGo pat rep f cs

/-- JS `String.prototype.replaceAll` on character lists, including the
empty-pattern behaviour (a copy of the replacement around every
character). -/
def replaceAllChars (pat rep s : List Char) : List Char :=
  if pat = [] then rep ++ (s.map (fun c => c :: rep)).flatten
  else replaceAllGo pat rep s.length s

/-- JS `replaceAll` on strings. -/
def replaceAllStr (pat rep s : String) : String :=
  String.mk (replaceAllChars pat.data rep.data s.data)

/-- JS `String.prototype.includes`: some tail of `s` starts with `pat`. -/
def substrB (pat s : List Char) : Bool := s.tails.any (fun t => pat.isPrefixOf t)

theorem substrB_true_iff {pat s : List Char} : substrB pat s = true ↔ pat <:+: s := by
  rw [substrB, List.any_eq_true]
  constructor
  · rintro ⟨t, ht, hpre⟩
    exact List.infix_iff_prefix_suffix.mpr
      ⟨t, List.isPrefixOf_iff_prefix.mp hpre, (List.mem_tails _ _).mp ht⟩
  · intro h
    rcases List.infix_iff_prefix_suffix.mp h with ⟨t, hpre, hsuf⟩
    exact ⟨t, (List.mem_tails _ _).mpr hsuf, List.isPrefixOf_iff_prefix.mpr hpre⟩

theorem substrB_cons_false {pat : List Char} {c : Char} {cs : List Char}
    (h : substrB pat (c :: cs) = false) :
    pat.isPrefixOf (c :: cs) = false ∧ substrB pat cs = false := by
  rw [substrB, List.tails_cons, List.any_cons] at h
  constructor
  · exact (Bool.or_eq_false_iff.mp h).1
  · exact (Bool.or_eq_false_iff.mp h).2

theorem substrB_self {pat : List Char} : pat.isPrefixOf pat = true :=
  List.isPrefixOf_iff_prefix.mpr List.prefix_rfl

theorem substrB_refl (pat : List Char) : substrB pat pat = true :=
  substrB_true_iff.mpr (List.infix_rfl)

theorem substrB_length_le {pat s : List Char} (h : substrB pat s = true) :
    pat.length ≤ s.length :=
  (substrB_true_iff.mp h).length_le

theorem substrB_eq_of_length {pat s : List Char} (h : substrB pat s = true)
    (hl : pat.length = s.length) : pat = s :=
  ((substrB_true_iff.mp h).sublist).eq_of_length hl

theorem replaceAllGo_of_not_substr {pat rep : List Char} :
    ∀ (f : Nat) (s : List Char), s.length ≤ f → substrB pat s = false →
      replaceAllGo pat rep f s = s := by
  intro f
  induction f with
  | zero =>
    intro s hlen _
    have : s = [] := List.length_eq_zero.mp (by omega)
    simp [this, replaceAllGo]
  | succ f ih =>
    intro s hlen hsub
    cases s with
    | nil => simp [replaceAllGo]
    | cons c cs =>
      obtain ⟨hpre, htail⟩ := substrB_cons_false hsub
      have hlen' : cs.length ≤ f := by
        simp only [List.length_cons] at hlen
        omega
      simp only [replaceAllGo, hpre, Bool.false_eq_true, if_false]
      rw [ih cs hlen' htail]

theorem replaceAllChars_of_not_substr {pat rep s : List Char} (hne : pat ≠ [])
    (h : substrB pat s = false) : replaceAllChars pat rep s = s := by
  rw [replaceAllChars, if_neg hne]
  exact replaceAllGo_of_not_substr s.length s le_rfl h

theorem replaceAllChars_self {pat rep : List Char} (hne : pat ≠ []) :
    replaceAllChars pat rep pat = rep := by
  rw [replaceAllChars, if_neg hne]
  cases pat with
  | nil => exact absurd rfl hne
  | cons c cs =>
    simp only [List.length_cons, replaceAllGo, substrB_self, if_true]
    rw [Nat.add_sub_cancel, List.drop_length]
    simp [replaceAllGo]

/-! ### The quoted-field CSV splitter (src/app.js lines 169-186) -/

/-- The character loop of `splitCSV`: `current` is the field being
accumulated, `inQuotes` the quote-parity flag. -/
def splitCSVGo : List Char → Bool → List Char → List (List Char)
  | [], _, current => [trimChars current]
  | c :: cs, inQuotes, current =>
    if c = '"' then splitCSVGo cs (!inQuotes) (current ++ [c])
    else if c = ',' ∧ inQuotes = false then
      trimChars current :: splitCSVGo cs inQuotes []
    else splitCSVGo cs inQuotes (current ++ [c])

/-- `splitCSV` (src/app.js lines 169-186): split on commas outside double
quotes, trimming each field. -/
def splitCSV (line : String) : List String :=
  (splitCSVGo line.data false []).map String.mk

/-! ### The unique-id allocator (src/app.js lines 147-165)

The mutable globals `usedIds` (a `Set`) and `nameMapping` (a plain object)
are modelled as an explicit state record threaded through every call; the
set keeps insertion order as a duplicate-free list, the object as an
insertion-ordered association list whose assignment replaces the value of
an existing key in place. -/

structure AllocState where
  usedIds : List String
  nameMapping : List (String × String)
deriving Repr, DecidableEq

/-- Reading `nameMapping[id]`: `none` models the JS `undefined`. -/
def lookupMap (m : List (String × String)) (k : String) : Option String :=
  (m.find? (fun p => p.1 == k)).map (fun p => p.2)

/-- The keys of the mapping, in insertion order. -/
def mapKeys (m : List (String × String)) : List String := m.map Prod.fst

/-- Writing `nameMapping[id] = v`: replace in place or append. -/
def insertMap (m : List (String × String)) (k v : String) : List (String × String) :=
  if m.any (fun p => p.1 == k) then m.map (fun p => if p.1 == k then (k, v) else p)
  else m ++ [(k, v)]

/-- `usedIds.add(id)` on the insertion-ordered list model of the set. -/
def addUsed (u : List String) (id : String) : List String :=
  if u.contains id then u else u ++ [id]

/-- The candidate chain tried by the collision loop: the JS variables are
`id = cand base j` and `n = j + 2`, i.e. `base, base2, base3, ...`. -/
def cand (base : String) : Nat → String
  | 0 => base
  | j + 1 => base ++ String.mk (natToDec (j + 2))

/-- The `while (...) id = base + n++` loop of `getUniqueId`, abstracted
over the loop's exit test `ok` (negation of its continuation test).  The
fuel never runs out when called with `usedIds.length + 1`
(`allocLoop_result_ok` below), so the `0` row is unreachable from
`getUniqueId` and `getFlowNodeId`. -/
def allocLoop (ok : String → Bool) (base : String) : Nat → Nat → String
  | 0, j => cand base j
  | f + 1, j => if ok (cand base j) then cand base j else allocLoop ok base f (j + 1)

/-- The `minLength` padding of `getUniqueId` (src/app.js lines 154-156);
`none` models a call without the optional argument. -/
def padBase (base : String) : Option Nat → String
  | none => base
  | some m =>
    if base.length < m then base ++ String.mk (List.replicate (m - base.length) '_')
    else base

/-- Exit test of the `getUniqueId` collision loop: the candidate is free,
or it is already mapped to this very display name. -/
def okUnique (st : AllocState) (d : String) (id : String) : Bool :=
  !(st.usedIds.contains id) || (lookupMap st.nameMapping id == some d)

/-- `getUniqueId` (src/app.js lines 150-165). -/
def getUniqueId (st : AllocState) (displayName : String) (minLength : Option Nat) :
    String × AllocState :=
  let base := padBase (sanitizeName displayName) minLength
  let id := allocLoop (okUnique st displayName) base (st.usedIds.length + 1) 0
  (id, ⟨addUsed st.usedIds id, insertMap st.nameMapping id displayName⟩)

/-! ### Allocator lemmas -/

theorem sanitizeName_ne_empty (s : String) : sanitizeName s ≠ "" := by
  rw [sanitizeName]
  split
  · decide
  · intro h
    have hd : cleanChars s.data = [] := congrArg String.data h
    simp_all

theorem sanitizeName_data_ne_nil (s : String) : (sanitizeName s).data ≠ [] := by
  intro h
  exact sanitizeName_ne_empty s (by
    have : sanitizeName s = String.mk [] := by
      cases hs : sanitizeName s
      simp_all
    simpa using this)

theorem padBase_data_ne_nil {base : String} (h : base.data ≠ []) (m : Option Nat) :
    (padBase base m).data ≠ [] := by
  cases m with
  | none => exact h
  | some k =>
    rw [padBase]
    split
    · rw [String.data_append]
      simp_all
    · exact h

theorem cand_data_ne_nil {base : String} (h : base.data ≠ []) (j : Nat) :
    (cand base j).data ≠ [] := by
  cases j with
  | zero => exact h
  | succ j =>
    rw [cand, String.data_append]
    simp_all

theorem cand_injective (base : String) : Function.Injective (cand base) := by
  intro i j h
  cases i with
  | zero =>
    cases j with
    | zero => rfl
    | succ j =>
      exfalso
      have := congrArg (fun s => s.data.length) h
      simp only [cand, String.data_append] at this
      have hne := natToDec_ne_nil (j + 2)
      simp only [List.length_append] at this
      cases hd : natToDec (j + 2) with
      | nil => exact hne hd
      | cons a l => rw [hd] at this; simp at this
  | succ i =>
    cases j with
    | zero =>
      exfalso
      have := congrArg (fun s => s.data.length) h
      simp only [cand, String.data_append] at this
      have hne := natToDec_ne_nil (i + 2)
      simp only [List.length_append] at this
      cases hd : natToDec (i + 2) with
      | nil => exact hne hd
      | cons a l => rw [hd] at this; simp at this
    | succ j =>
      have hdata := congrArg String.data h
      simp only [cand, String.data_append] at hdata
      have hc := List.append_cancel_left hdata
      have := natToDec_injective hc
      omega

theorem allocLoop_ok_of_exists {ok : String → Bool} {base : String} :
    ∀ (f j : Nat), (∃ i, i < f ∧ ok (cand base (j + i)) = true) →
      ok (allocLoop ok base f j) = true := by
  intro f
  induction f with
  | zero =>
    rintro j ⟨i, hi, _⟩
    omega
  | succ f ih =>
    rintro j ⟨i, hi, hok⟩
    by_cases h0 : ok (cand base j) = true
    · simp [allocLoop, h0]
    · have hine : i ≠ 0 := by
        rintro rfl
        simp only [Nat.add_zero] at hok
        exact h0 hok
      rw [allocLoop, if_neg (by simp_all)]
      exact ih (j + 1) ⟨i - 1, by omega, by
        have : j + 1 + (i - 1) = j + i := by omega
        rwa [this]⟩

theorem allocLoop_mem_cand (ok : String → Bool) (base : String) :
    ∀ (f j : Nat), ∃ i, allocLoop ok base f j = cand base (j + i) := by
  intro f
  induction f with
  | zero => exact fun j => ⟨0, rfl⟩
  | succ f ih =>
    intro j
    by_cases h0 : ok (cand base j) = true
    · exact ⟨0, by simp [allocLoop, h0]⟩
    · obtain ⟨i, hi⟩ := ih (j + 1)
      exact ⟨i + 1, by rw [allocLoop, if_neg (by simp_all)]; rw [hi]; ring_nf⟩

theorem allocLoop_fuel_ext {ok : String → Bool} {base : String} :
    ∀ (f g j : Nat), ok (allocLoop ok base f j) = true → f ≤ g →
      allocLoop ok base g j = allocLoop ok base f j := by
  intro f
  induction f with
  | zero =>
    intro g j hok _
    simp only [allocLoop] at hok
    cases g with
    | zero => rfl
    | succ g => simp [allocLoop, hok]
  | succ f ih =>
    intro g j hok hle
    cases g with
    | zero => omega
    | succ g =>
      by_cases h0 : ok (cand base j) = true
      · simp [allocLoop, h0]
      · rw [allocLoop, if_neg (by simp_all)]
        rw [allocLoop, if_neg (by simp_all)] at hok ⊢
        exact ih g (j + 1) hok (by omega)

theorem allocLoop_congr {ok₁ ok₂ : String → Bool} {base : String}
    (hmono : ∀ c, ok₁ c = false → ok₂ c = false) :
    ∀ (f j : Nat), ok₂ (allocLoop ok₁ base f j) = true →
      allocLoop ok₂ base f j = allocLoop ok₁ base f j := by
  intro f
  induction f with
  | zero => intro j _; rfl
  | succ f ih =>
    intro j h2
    by_cases h0 : ok₁ (cand base j) = true
    · rw [allocLoop, if_pos h0] at h2
      simp [allocLoop, h0, h2]
    · have h0' := hmono _ (by simpa using h0)
      rw [allocLoop, if_neg h0] at h2
      rw [allocLoop, if_neg (by simp [h0'])]
      rw [allocLoop, if_neg h0]
      exact ih (j + 1) h2

theorem exists_ok_cand {ok : String → Bool} {base : String} {used : List String}
    (h : ∀ i, ok (cand base i) = false → cand base i ∈ used) :
    ∃ i, i < used.length + 1 ∧ ok (cand base i) = true := by
  by_contra hno
  push_neg at hno
  have hall : ∀ i ≤ used.length, cand base i ∈ used := by
    intro i hi
    refine h i ?_
    cases hok : ok (cand base i) with
    | false => rfl
    | true => exact absurd hok (hno i (by omega))
  have hsub : ((List.range (used.length + 1)).map (cand base)) ⊆ used := by
    intro x hx
    rcases List.mem_map.mp hx with ⟨i, hi, rfl⟩
    exact hall i (by simpa [Nat.lt_succ_iff] using List.mem_range.mp hi)
  have hnd : ((List.range (used.length + 1)).map (cand base)).Nodup :=
    (List.nodup_range _).map (cand_injective base)
  have := (List.subperm_of_subset hnd hsub).length_le
  simp at this

theorem any_key_iff {m : List (String × String)} {k : String} :
    (m.any (fun p => p.1 == k)) = true ↔ k ∈ mapKeys m := by
  simp [mapKeys, List.any_eq_true]

theorem lookupMap_cons_pos {p : String × String} {ps : List (String × String)}
    {k : String} (h : p.1 = k) : lookupMap (p :: ps) k = some p.2 := by
  rw [lookupMap, List.find?_cons_of_pos _ (by simp [h])]
  rfl

theorem lookupMap_cons_neg {p : String × String} {ps : List (String × String)}
    {k : String} (h : p.1 ≠ k) : lookupMap (p :: ps) k = lookupMap ps k := by
  rw [lookupMap, List.find?_cons_of_neg _ (by simp [h]), lookupMap]

theorem lookupMap_mem_keys {m : List (String × String)} {k v : String}
    (h : lookupMap m k = some v) : k ∈ mapKeys m := by
  rw [lookupMap] at h
  rcases hf : m.find? (fun p => p.1 == k) with _ | p
  · rw [hf] at h
    simp at h
  · have := List.find?_some hf
    have hm := List.mem_of_find?_eq_some hf
    simp only [beq_iff_eq] at this
    exact this ▸ List.mem_map.mpr ⟨p, hm, rfl⟩

theorem lookupMap_map_replace_self (m : List (String × String)) (k v : String)
    (h : k ∈ mapKeys m) :
    lookupMap (m.map (fun p => if p.1 == k then (k, v) else p)) k = some v := by
  induction m with
  | nil => simp [mapKeys] at h
  | cons p ps ih =>
    rw [List.map_cons]
    by_cases hp : p.1 = k
    · rw [if_pos (by simpa using hp)]
      exact lookupMap_cons_pos rfl
    · have hmem : k ∈ mapKeys ps := by
        simp only [mapKeys, List.map_cons, List.mem_cons] at h
        tauto
      rw [if_neg (by simpa using hp), lookupMap_cons_neg hp]
      exact ih hmem

theorem lookupMap_map_replace_ne (m : List (String × String)) (k v k' : String)
    (h : k' ≠ k) :
    lookupMap (m.map (fun p => if p.1 == k then (k, v) else p)) k' = lookupMap m k' := by
  induction m with
  | nil => rfl
  | cons p ps ih =>
    rw [List.map_cons]
    by_cases hp : p.1 = k
    · rw [if_pos (by simpa using hp)]
      rw [lookupMap_cons_neg (show (k, v).1 ≠ k' from fun he => h he.symm),
        lookupMap_cons_neg (show p.1 ≠ k' from by rw [hp]; exact fun he => h he.symm)]
      exact ih
    · rw [if_neg (by simpa using hp)]
      by_cases hpk : p.1 = k'
      · rw [lookupMap_cons_pos hpk, lookupMap_cons_pos hpk]
      · rw [lookupMap_cons_neg hpk, lookupMap_cons_neg hpk]
        exact ih

theorem lookupMap_append_single_self (m : List (String × String)) (k v : String)
    (h : k ∉ mapKeys m) : lookupMap (m ++ [(k, v)]) k = some v := by
  induction m with
  | nil => exact lookupMap_cons_pos rfl
  | cons p ps ih =>
    have hp : p.1 ≠ k := by
      intro he
      exact h (List.mem_map.mpr ⟨p, List.mem_cons_self _ _, he⟩)
    have hmem : k ∉ mapKeys ps := fun hk => h (by
      simp only [mapKeys, List.map_cons, List.mem_cons]
      exact Or.inr hk)
    rw [List.cons_append, lookupMap_cons_neg hp]
    exact ih hmem

theorem lookupMap_append_single_ne (m : List (String × String)) (k v k' : String)
    (h : k' ≠ k) : lookupMap (m ++ [(k, v)]) k' = lookupMap m k' := by
  induction m with
  | nil =>
    rw [List.nil_append, lookupMap_cons_neg (show (k, v).1 ≠ k' from fun he => h he.symm)]
  | cons p ps ih =>
    by_cases hpk : p.1 = k'
    · rw [List.cons_append, lookupMap_cons_pos hpk, lookupMap_cons_pos hpk]
    · rw [List.cons_append, lookupMap_cons_neg hpk, lookupMap_cons_neg hpk]
      exact ih

theorem lookupMap_insertMap_self (m : List (String × String)) (k v : String) :
    lookupMap (insertMap m k v) k = some v := by
  rw [insertMap]
  by_cases hany : (m.any (fun p => p.1 == k)) = true
  · rw [if_pos hany]
    exact lookupMap_map_replace_self m k v (any_key_iff.mp hany)
  · rw [if_neg hany]
    exact lookupMap_append_single_self m k v (fun hm => hany (any_key_iff.mpr hm))

theorem lookupMap_insertMap_ne (m : List (String × String)) (k v k' : String)
    (h : k' ≠ k) : lookupMap (insertMap m k v) k' = lookupMap m k' := by
  rw [insertMap]
  split
  · exact lookupMap_map_replace_ne m k v k' h
  · exact lookupMap_append_single_ne m k v k' h

theorem lookupMap_insertMap_frozen (m : List (String × String)) (k v : String)
    (h : lookupMap m k = some v) (k' : String) :
    lookupMap (insertMap m k v) k' = lookupMap m k' := by
  by_cases hk : k' = k
  · rw [hk, lookupMap_insertMap_self, h]
  · exact lookupMap_insertMap_ne m k v k' hk

theorem mapKeys_insertMap_of_mem {m : List (String × String)} {k : String} (v : String)
    (h : k ∈ mapKeys m) : mapKeys (insertMap m k v) = mapKeys m := by
  rw [insertMap, if_pos (any_key_iff.mpr h)]
  rw [mapKeys, List.map_map, mapKeys]
  refine List.map_congr_left ?_
  intro q hq
  by_cases hqk : q.1 = k
  · simp [hqk]
  · simp [hqk]

theorem mapKeys_insertMap_of_not_mem {m : List (String × String)} {k : String} (v : String)
    (h : k ∉ mapKeys m) : mapKeys (insertMap m k v) = mapKeys m ++ [k] := by
  rw [insertMap, if_neg (fun hany => h (any_key_iff.mp hany))]
  simp [mapKeys]

theorem mem_addUsed_self (u : List String) (id : String) : id ∈ addUsed u id := by
  rw [addUsed]
  split
  · simpa using (by assumption : u.contains id = true)
  · simp

theorem mem_addUsed_of_mem {u : List String} {x : String} (id : String)
    (h : x ∈ u) : x ∈ addUsed u id := by
  rw [addUsed]
  split
  · exact h
  · simp [h]

theorem length_addUsed_ge (u : List String) (id : String) :
    u.length ≤ (addUsed u id).length := by
  rw [addUsed]
  split
  · exact le_rfl
  · simp

/-- Well-formedness of the allocator state, maintained across every call:
mapping keys are duplicate-free, recorded in the used set, and non-empty. -/
def wfA (st : AllocState) : Prop :=
  (mapKeys st.nameMapping).Nodup ∧
  (∀ k ∈ mapKeys st.nameMapping, k ∈ st.usedIds) ∧
  (∀ k ∈ mapKeys st.nameMapping, k ≠ "")

theorem getUniqueId_result_ok (st : AllocState) (d : String) (m : Option Nat) :
    okUnique st d (getUniqueId st d m).1 = true := by
  have hex := @exists_ok_cand (okUnique st d)
    (padBase (sanitizeName d) m) st.usedIds ?_
  · obtain ⟨i, hi, hok⟩ := hex
    exact allocLoop_ok_of_exists _ _ ⟨i, hi, by simpa using hok⟩
  · intro i hfalse
    rw [okUnique, Bool.or_eq_false_iff] at hfalse
    have := hfalse.1
    simp only [Bool.not_eq_false'] at this
    simpa using this

theorem getUniqueId_result_ne_empty (st : AllocState) (d : String) (m : Option Nat) :
    (getUniqueId st d m).1 ≠ "" := by
  obtain ⟨i, hi⟩ := allocLoop_mem_cand (okUnique st d) (padBase (sanitizeName d) m)
    (st.usedIds.length + 1) 0
  intro h
  rw [getUniqueId] at h
  simp only at h
  rw [hi] at h
  exact cand_data_ne_nil (padBase_data_ne_nil (sanitizeName_data_ne_nil d) m) _
    (congrArg String.data h)

theorem getUniqueId_post_lookup (st : AllocState) (d : String) (m : Option Nat) :
    lookupMap (getUniqueId st d m).2.nameMapping (getUniqueId st d m).1 = some d :=
  lookupMap_insertMap_self _ _ _

theorem getUniqueId_post_used (st : AllocState) (d : String) (m : Option Nat) :
    (getUniqueId st d m).1 ∈ (getUniqueId st d m).2.usedIds :=
  mem_addUsed_self _ _

theorem getUniqueId_used_mono {st : AllocState} {x : String} (d : String) (m : Option Nat)
    (h : x ∈ st.usedIds) : x ∈ (getUniqueId st d m).2.usedIds :=
  mem_addUsed_of_mem _ h

theorem getUniqueId_usedLen_mono (st : AllocState) (d : String) (m : Option Nat) :
    st.usedIds.length ≤ (getUniqueId st d m).2.usedIds.length :=
  length_addUsed_ge _ _

theorem getUniqueId_frozen {st : AllocState} (d : String) (m : Option Nat)
    {k : String} (hk : k ∈ st.usedIds) :
    lookupMap (getUniqueId st d m).2.nameMapping k = lookupMap st.nameMapping k := by
  have hok := getUniqueId_result_ok st d m
  rw [okUnique, Bool.or_eq_true_iff] at hok
  rcases hok with hfree | hmapped
  · have hnotused : (getUniqueId st d m).1 ∉ st.usedIds := by
      simp only [Bool.not_eq_true'] at hfree
      simpa using hfree
    have hne : k ≠ (getUniqueId st d m).1 := fun he => hnotused (he ▸ hk)
    exact lookupMap_insertMap_ne _ _ _ _ hne
  · have hl : lookupMap st.nameMapping (getUniqueId st d m).1 = some d := by
      simpa using hmapped
    exact lookupMap_insertMap_frozen _ _ _ hl k

theorem getUniqueId_wf {st : AllocState} (d : String) (m : Option Nat)
    (hwf : wfA st) : wfA (getUniqueId st d m).2 := by
  obtain ⟨hnd, hmem, hne⟩ := hwf
  have hok := getUniqueId_result_ok st d m
  rw [okUnique, Bool.or_eq_true_iff] at hok
  rcases hok with hfree | hmapped
  · have hnotused : (getUniqueId st d m).1 ∉ st.usedIds := by
      simp only [Bool.not_eq_true'] at hfree
      simpa using hfree
    have hnotkey : (getUniqueId st d m).1 ∉ mapKeys st.nameMapping :=
      fun hk => hnotused (hmem _ hk)
    have hkeys := mapKeys_insertMap_of_not_mem d hnotkey
    refine ⟨?_, ?_, ?_⟩
    · show (mapKeys (insertMap st.nameMapping (getUniqueId st d m).1 d)).Nodup
      rw [hkeys]
      exact hnd.append (List.nodup_singleton _) (List.disjoint_singleton.mpr hnotkey)
    · intro k hk
      rw [show (getUniqueId st d m).2.nameMapping =
        insertMap st.nameMapping (getUniqueId st d m).1 d from rfl, hkeys] at hk
      rcases List.mem_append.mp hk with hold | hnew
      · exact mem_addUsed_of_mem _ (hmem _ hold)
      · rw [List.mem_singleton.mp hnew]
        exact mem_addUsed_self _ _
    · intro k hk
      rw [show (getUniqueId st d m).2.nameMapping =
        insertMap st.nameMapping (getUniqueId st d m).1 d from rfl, hkeys] at hk
      rcases List.mem_append.mp hk with hold | hnew
      · exact hne _ hold
      · rw [List.mem_singleton.mp hnew]
        exact getUniqueId_result_ne_empty st d m
  · have hkey : (getUniqueId st d m).1 ∈ mapKeys st.nameMapping :=
      lookupMap_mem_keys (show lookupMap st.nameMapping (getUniqueId st d m).1 = some d by
        simpa using hmapped)
    have hkeys := mapKeys_insertMap_of_mem (m := st.nameMapping) d hkey
    refine ⟨?_, ?_, ?_⟩
    · show (mapKeys (insertMap st.nameMapping (getUniqueId st d m).1 d)).Nodup
      rw [hkeys]
      exact hnd
    · intro k hk
      rw [show (getUniqueId st d m).2.nameMapping =
        insertMap st.nameMapping (getUniqueId st d m).1 d from rfl, hkeys] at hk
      exact mem_addUsed_of_mem _ (hmem _ hk)
    · intro k hk
      rw [show (getUniqueId st d m).2.nameMapping =
        insertMap st.nameMapping (getUniqueId st d m).1 d from rfl, hkeys] at hk
      exact hne _ hk

/-- Accumulated effect of any number of allocator calls on the state, as
seen by identifiers that were already in the used set. -/
def reach (st st' : AllocState) : Prop :=
  (∀ k ∈ st.usedIds, k ∈ st'.usedIds) ∧
  (∀ k ∈ st.usedIds, lookupMap st'.nameMapping k = lookupMap st.nameMapping k) ∧
  st.usedIds.length ≤ st'.usedIds.length

theorem reach_refl (st : AllocState) : reach st st :=
  ⟨fun _ h => h, fun _ _ => rfl, le_rfl⟩

theorem reach_trans {st₁ st₂ st₃ : AllocState} (h12 : reach st₁ st₂)
    (h23 : reach st₂ st₃) : reach st₁ st₃ := by
  refine ⟨fun k hk => h23.1 k (h12.1 k hk), fun k hk => ?_, le_trans h12.2.2 h23.2.2⟩
  rw [h23.2.1 k (h12.1 k hk), h12.2.1 k hk]

theorem reach_step (st : AllocState) (d : String) (m : Option Nat) :
    reach st (getUniqueId st d m).2 :=
  ⟨fun _ hk => getUniqueId_used_mono d m hk,
   fun _ hk => getUniqueId_frozen d m hk,
   getUniqueId_usedLen_mono st d m⟩

/-- Core of the (amended) stability property: a later call with the same
display name and the same `minLength` reproduces an earlier call's
identifier, across any interleaved allocator activity. -/
theorem getUniqueId_stable {st₁ st₂ : AllocState} {d : String} {m : Option Nat}
    {r : String} (h1 : (getUniqueId st₁ d m).1 = r)
    (hreach : reach (getUniqueId st₁ d m).2 st₂) :
    (getUniqueId st₂ d m).1 = r := by
  have hlook₂ : lookupMap st₂.nameMapping r = some d := by
    rw [hreach.2.1 r (h1 ▸ getUniqueId_post_used st₁ d m)]
    exact h1 ▸ getUniqueId_post_lookup st₁ d m
  have hok₂r : okUnique st₂ d r = true := by
    rw [okUnique, hlook₂]
    simp
  have hmono : ∀ c, okUnique st₁ d c = false → okUnique st₂ d c = false := by
    intro c hc
    rw [okUnique, Bool.or_eq_false_iff] at hc ⊢
    have hcu : c ∈ st₁.usedIds := by
      have := hc.1
      simp only [Bool.not_eq_false'] at this
      simpa using this
    have hcu₁ : c ∈ (getUniqueId st₁ d m).2.usedIds := getUniqueId_used_mono d m hcu
    refine ⟨by simpa using hreach.1 c hcu₁, ?_⟩
    rw [hreach.2.1 c hcu₁, getUniqueId_frozen d m hcu]
    exact hc.2
  have hfuel : st₁.usedIds.length + 1 ≤ st₂.usedIds.length + 1 := by
    have h1le := getUniqueId_usedLen_mono st₁ d m
    have h2le := hreach.2.2
    omega
  have hr1 : allocLoop (okUnique st₁ d) (padBase (sanitizeName d) m)
      (st₁.usedIds.length + 1) 0 = r := h1
  have hcongr := @allocLoop_congr (okUnique st₁ d) (okUnique st₂ d)
    (padBase (sanitizeName d) m) hmono
    (st₁.usedIds.length + 1) 0 (by rw [hr1]; exact hok₂r)
  have hext := allocLoop_fuel_ext (st₁.usedIds.length + 1) (st₂.usedIds.length + 1) 0
    (by rw [hcongr, hr1]; exact hok₂r) hfuel
  show allocLoop (okUnique st₂ d) (padBase (sanitizeName d) m)
      (st₂.usedIds.length + 1) 0 = r
  rw [hext, hcongr]
  exact hr1

/-- Core of the uniqueness property: once an identifier is used and mapped
to a display name, any later call returning that identifier carried the
same display name. -/
theorem getUniqueId_lookup_det {st : AllocState} {r d₁ d₂ : String} {m : Option Nat}
    (hr : r ∈ st.usedIds) (hl : lookupMap st.nameMapping r = some d₁)
    (h2 : (getUniqueId st d₂ m).1 = r) : d₂ = d₁ := by
  have hok := getUniqueId_result_ok st d₂ m
  rw [h2, okUnique, Bool.or_eq_true_iff] at hok
  rcases hok with hfree | hmapped
  · exfalso
    simp only [Bool.not_eq_true'] at hfree
    have : r ∉ st.usedIds := by simpa using hfree
    exact this hr
  · have hl2 : lookupMap st.nameMapping r = some d₂ := by simpa using hmapped
    rw [hl] at hl2
    injection hl2 with h
    exact h.symm

/-! ### The ER preprocessor (src/app.js lines 198-362) -/

/-- The brace characters, named to keep them out of string literals. -/
def lbrace : Char := Char.ofNat 123

def rbrace : Char := Char.ofNat 125

/-- Strip trailing whitespace only. -/
def rstripChars (l : List Char) : List Char := (l.reverse.dropWhile isWS).reverse

/-- Case-insensitive keyword prefix test, modelling a `/^kw/i` match:
`kw` is given lowercase. -/
def ciPrefixB (kw l : List Char) : Bool :=
  ((l.take kw.length).map Char.toLower) == kw

/-- The five direction tokens `(TD|TB|BT|LR|RL)`, case-insensitively. -/
def isDirToken (l : List Char) : Bool :=
  let t := l.map Char.toLower
  t == "td".data || t == "tb".data || t == "bt".data || t == "lr".data || t == "rl".data

/-- `trimmed.match(/^erDiagram(\s+(TD|TB|BT|LR|RL))?$/i)` (src/app.js
line 222): `some none` is a bare declaration, `some (some d)` carries the
uppercased shorthand direction. -/
def matchERDecl (t : List Char) : Option (Option String) :=
  if t.map Char.toLower = "erdiagram".data then some none
  else if ciPrefixB ("erdiagram".data) t then
    let rest := t.drop 9
    let ws := rest.takeWhile isWS
    let tok := rest.dropWhile isWS
    if ws ≠ [] ∧ isDirToken tok then some (some (String.mk (tok.map Char.toUpper)))
    else none
  else none

/-- `trimmed.match(/^direction\s+(TD|TB|BT|LR|RL)$/i)` (src/app.js
line 230), returning the uppercased token. -/
def matchDirection (t : List Char) : Option String :=
  if ciPrefixB ("direction".data) t then
    let rest := t.drop 9
    let ws := rest.takeWhile isWS
    let tok := rest.dropWhile isWS
    if ws ≠ [] ∧ isDirToken tok then some (String.mk (tok.map Char.toUpper))
    else none
  else none

/-- `/^(PK|FK|UK)$/i.test(s)` (src/app.js line 291). -/
def isKeyTag (s : String) : Bool :=
  let t := s.data.map Char.toLower
  t == "pk".data || t == "fk".data || t == "uk".data

/-- `parts.join(", ")`. -/
def joinCS : List String → String
  | [] => ""
  | [s] => s
  | s :: rest => s ++ ", " ++ joinCS rest

/-- The comment-emission step of `preprocessERAttribute` (src/app.js
lines 311-314): a truthy comment has one layer of surrounding quotes
stripped, is re-trimmed, and is appended re-quoted when non-empty. -/
def commentRequote (cm : String) : String :=
  if cm ≠ "" then
    if String.mk (trimChars (stripEnds '"' cm.data)) ≠ "" then
      " \"" ++ String.mk (trimChars (stripEnds '"' cm.data)) ++ "\""
    else ""
  else ""

/-- Everything `preprocessERAttribute` emits after `identifier type`:
the optional uppercased key tag (field 3 matching PK/FK/UK) and the
optional re-quoted comment — fields 4+ rejoined when present, otherwise a
non-key field 3 (src/app.js lines 289-315).  `rest` is the field list
from position 3 on. -/
def erAttrTail (rest : List String) : String :=
  let key : Option String :=
    match rest with
    | p2 :: _ => if isKeyTag p2 then some (String.mk (p2.data.map Char.toUpper)) else none
    | [] => none
  let comment : Option String :=
    if rest.length ≥ 2 then some (String.mk (trimChars (joinCS (rest.drop 1)).data))
    else match rest with
      | [p2] => if key = none then some (String.mk (trimChars p2.data)) else none
      | _ => none
  (match key with | some ks => " " ++ ks | none => "") ++
    (match comment with | some cm => commentRequote cm | none => "")

/-- `preprocessERAttribute` (src/app.js lines 274-316): reparse an
attribute line `Name, type [, PK|FK|UK] [, "comment"]` and emit
`identifier type [KEY] ["comment"]`, passing malformed lines through. -/
def preprocessERAttribute (st : AllocState) (line : String) : String × AllocState :=
  match splitCSV (String.mk (trimChars line.data)) with
  | p0 :: p1 :: rest =>
    (String.mk (indentOf line.data) ++ (getUniqueId st p0 (some (p0.length + 2))).1 ++
      " " ++ p1 ++ erAttrTail rest,
     (getUniqueId st p0 (some (p0.length + 2))).2)
  | _ => (line, st)

/-- One-position match of the cardinality-operator regex
`([|}][o|])(--|\.\.)([o|][|{])` (src/app.js line 209): always six
characters. -/
def relOpAt (l : List Char) : Bool :=
  match l with
  | c1 :: c2 :: c3 :: c4 :: c5 :: c6 :: _ =>
    (c1 == '|' || c1 == rbrace) && (c2 == 'o' || c2 == '|') &&
    ((c3 == '-' && c4 == '-') || (c3 == '.' && c4 == '.')) &&
    (c5 == 'o' || c5 == '|') && (c6 == '|' || c6 == lbrace)
  | _ => false

/-- Index of the leftmost cardinality-operator match, as found by
`trimmed.match(relOp)`. -/
def findRelOp : List Char → Option Nat
  | [] => none
  | c :: cs => if relOpAt (c :: cs) then some 0 else (findRelOp cs).map (· + 1)

/-- Index of the first occurrence of a character (`indexOf`). -/
def findCharIdx (c : Char) : List Char → Option Nat
  | [] => none
  | x :: xs => if x = c then some 0 else (findCharIdx c xs).map (· + 1)

/-- `preprocessERRelationship` (src/app.js lines 318-362): split at the
operator, split the right side at the first colon into entity and label,
allocate both entities (left first), and re-quote the label when it has a
character outside letters, digits, underscore and space. -/
def preprocessERRelationship (st : AllocState) (line : String) : String × AllocState :=
  let indent := indentOf line.data
  let trimmed := trimChars line.data
  match findRelOp trimmed with
  | none => (line, st)
  | some i =>
    let leftRaw := trimChars (trimmed.take i)
    let operator := String.mk ((trimmed.drop i).take 6)
    let rightPart := trimChars (trimmed.drop (i + 6))
    let re : List Char × List Char :=
      match findCharIdx ':' rightPart with
      | some ci => (trimChars (rightPart.take ci), trimChars (rightPart.drop (ci + 1)))
      | none => (rightPart, [])
    let leftDisplay := String.mk (trimChars (stripEnds '"' leftRaw))
    let rightDisplay := String.mk (trimChars (stripEnds '"' re.1))
    let a1 := getUniqueId st leftDisplay none
    let a2 := getUniqueId a1.2 rightDisplay none
    let labelOut : List Char :=
      if re.2 ≠ [] ∧ re.2.head? ≠ some '"' then
        if re.2.any (fun c => !(isAlnum c || c = '_' || c = ' ')) then
          '"' :: re.2 ++ ['"']
        else re.2
      else re.2
    let out := String.mk indent ++ a1.1 ++ " " ++ operator ++ " " ++ a2.1 ++
      (if labelOut ≠ [] then " : " ++ String.mk labelOut else "")
    (out, a2.2)

/-- The entity-opening match `/^(.+?)\s*\{$/` (src/app.js line 250): the
line ends in an opening brace and the lazily captured group is everything
before the brace with trailing whitespace shed, required non-empty. -/
def entityOpenName (t : List Char) : Option (List Char) :=
  match t.getLast? with
  | some c =>
    if c = lbrace then
      let body := rstripChars t.dropLast
      if body ≠ [] then some body else none
    else none
  | none => none

/-- JS `code.split("\n")`. -/
def splitLines : List Char → List (List Char)
  | [] => [[]]
  | c :: t =>
    if c = '\n' then [] :: splitLines t
    else
      match splitLines t with
      | h :: r => (c :: h) :: r
      | [] => [[c]]

/-- JS `result.join("\n")`. -/
def joinLines : List String → String
  | [] => ""
  | [s] => s
  | s :: rest => s ++ "\n" ++ joinLines rest

/-- Line-machine state of `preprocessER`: inside-block cursor, captured
direction, allocator state, and emitted lines. -/
structure ERState where
  inEntity : Bool
  direction : Option String
  alloc : AllocState
  acc : List String

/-- One line of the `preprocessER` loop (src/app.js lines 211-269),
with the branches in source order: blank/comment, declaration (with
optional shorthand direction, which overwrites the captured direction),
standalone direction statement (captured and elided), closing brace,
attribute line while inside a block, entity opening, relationship line,
passthrough. -/
def stepER (s : ERState) (line : String) : ERState :=
  let trimmed := trimChars line.data
  if trimmed = [] ∨ ("%%".data).isPrefixOf trimmed then
    { s with acc := s.acc ++ [line] }
  else
    match matchERDecl trimmed with
    | some dopt =>
      { s with acc := s.acc ++ ["erDiagram"],
               direction := match dopt with | some d => some d | none => s.direction }
    | none =>
      match matchDirection trimmed with
      | some d => { s with direction := some d }
      | none =>
        if trimmed = [rbrace] then
          { s with inEntity := false, acc := s.acc ++ [line] }
        else if s.inEntity then
          let r := preprocessERAttribute s.alloc line
          { s with alloc := r.2, acc := s.acc ++ [r.1] }
        else
          match entityOpenName trimmed with
          | some name =>
            let display := String.mk (trimChars (stripEnds '"' name))
            let a := getUniqueId s.alloc display none
            { s with inEntity := true, alloc := a.2,
                     acc := s.acc ++ [String.mk (indentOf line.data) ++ a.1 ++ " \x7b"] }
          | none =>
            match findRelOp trimmed with
            | some _ =>
              let r := preprocessERRelationship s.alloc line
              { s with alloc := r.2, acc := s.acc ++ [r.1] }
            | none => { s with acc := s.acc ++ [line] }

/-- Result of one ER compile pass: rewritten text, captured direction and
final allocator state (the pass's name mapping lives in the state). -/
structure ERResult where
  code : String
  direction : Option String
  state : AllocState
deriving Repr, DecidableEq

/-- `preprocessER` (src/app.js lines 198-272): reset the pass state, run
the line machine, and return the rewritten text with the direction. -/
def preprocessER (code : String) : ERResult :=
  let lines := splitLines code.data
  let final := lines.foldl (fun s l => stepER s (String.mk l))
    ⟨false, none, ⟨[], []⟩, []⟩
  ⟨joinLines final.acc, final.direction, final.alloc⟩

/-- The direction token a line assigns in the `preprocessER` loop, if
any: the shorthand of a declaration line or the token of a standalone
direction statement (src/app.js lines 221-234); every other kind of line
leaves the captured direction alone. -/
def lineDirToken (l : List Char) : Option String :=
  let t := trimChars l
  if t = [] ∨ ("%%".data).isPrefixOf t then none
  else
    match matchERDecl t with
    | some (some d) => some d
    | some none => none
    | none => matchDirection t

/-- Last-write-wins composition of one optional direction assignment
into the captured direction, mirroring `erDirection = dirMatch[1]`. -/
def dirApply (a : Option String) : Option String → Option String
  | some d => some d
  | none => a

/-! ### The flowchart preprocessor (src/app.js lines 372-498) -/

inductive FlowShape
  | diamond
  | rect
  | round
deriving Repr, DecidableEq

inductive FlowTok
  | arrow (raw : String)
  | raw (s : String)
  | node (label : String) (shape : FlowShape)
deriving Repr, DecidableEq

/-- Length of the run of `c` at the front of `l`. -/
def countRun (c : Char) (l : List Char) : Nat := (l.takeWhile (fun x => x = c)).length

/-- Character at index `n`, the JS `rest[pos + n]` (an out-of-range read
is `undefined`, which compares unequal to every character). -/
def charAt (s : List Char) (n : Nat) : Option Char := (s.drop n).head?

/-- Length of the arrow-core match of
`/^(--+>|--+|==+>|==+|-\.+-\>?|-\.+)/` at the start of `s`
(src/app.js line 430), following the regex alternation order.  A run of
`k ≥ 2` dashes matches `--+>` exactly when `>` follows the whole run
(shrinking the greedy `-+` puts a dash where `>` is required, so
backtracking never helps), and `--+` otherwise; likewise for `==+>`/`==+`.
A single dash followed by `e ≥ 1` dots matches the dotted alternatives the
same way. -/
def matchArrowCore (s : List Char) : Option Nat :=
  match s with
  | [] => none
  | c :: rest =>
    if c = '-' then
      if 1 + countRun '-' rest ≥ 2 then
        some (if charAt s (1 + countRun '-' rest) = some '>' then
          1 + countRun '-' rest + 1 else 1 + countRun '-' rest)
      else
        if countRun '.' rest ≥ 1 then
          if charAt s (1 + countRun '.' rest) = some '-' then
            some (if charAt s (2 + countRun '.' rest) = some '>' then
              countRun '.' rest + 3 else countRun '.' rest + 2)
          else some (countRun '.' rest + 1)
        else none
    else if c = '=' then
      if 1 + countRun '=' rest ≥ 2 then
        some (if charAt s (1 + countRun '=' rest) = some '>' then
          1 + countRun '=' rest + 1 else 1 + countRun '=' rest)
      else none
    else none

/-- Length of the optional label segment `(?:\|[^|]*\|)?` right after the
arrow core: both pipes present, or nothing. -/
def matchArrowLabel (s : List Char) : Nat :=
  match s with
  | '|' :: rest =>
    match findCharIdx '|' rest with
    | some k => k + 2
    | none => 0
  | _ => 0

/-- Index of the first occurrence of the two-character sequence `ab`
(JS `indexOf` of a two-character string). -/
def findSub2 (a b : Char) : List Char → Option Nat
  | x :: y :: rest =>
    if x = a ∧ y = b then some 0 else (findSub2 a b (y :: rest)).map (· + 1)
  | _ => none

/-- Length of the optional shape/label suffix of an identifier token,
`(\["[^"]*"\]|\("[^"]*"\)|\{"[^"]*"\}|\(\["[^"]*"\]\)|\[\["[^"]*"\]\])?`
(src/app.js line 474); `0` when the group matches empty.  The five
alternatives have pairwise distinct openers, so the alternation order
does not matter; within one alternative the greedy `[^"]*` reaches
exactly the next quote. -/
def matchIdSuffix (l : List Char) : Nat :=
  match l with
  | c1 :: c2 :: rest =>
    if c1 = '[' ∧ c2 = '"' then
      match findCharIdx '"' rest with
      | some k => if ([']']).isPrefixOf (rest.drop (k + 1)) then k + 4 else 0
      | none => 0
    else if c1 = '(' ∧ c2 = '"' then
      match findCharIdx '"' rest with
      | some k => if ([')']).isPrefixOf (rest.drop (k + 1)) then k + 4 else 0
      | none => 0
    else if c1 = lbrace ∧ c2 = '"' then
      match findCharIdx '"' rest with
      | some k => if ([rbrace]).isPrefixOf (rest.drop (k + 1)) then k + 4 else 0
      | none => 0
    else if c1 = '(' ∧ c2 = '[' then
      match rest with
      | '"' :: r2 =>
        match findCharIdx '"' r2 with
        | some k => if ([']', ')']).isPrefixOf (r2.drop (k + 1)) then k + 6 else 0
        | none => 0
      | _ => 0
    else if c1 = '[' ∧ c2 = '[' then
      match rest with
      | '"' :: r2 =>
        match findCharIdx '"' r2 with
        | some k => if ([']', ']']).isPrefixOf (r2.drop (k + 1)) then k + 6 else 0
        | none => 0
      | _ => 0
    else 0
  | _ => 0

/-- One iteration of the scanning `while (pos < rest.length)` loop of
`preprocessFlowLine` (src/app.js lines 424-484), on the suffix starting
at `pos`: possibly a token, and the new suffix.  A branch whose closing
delimiter search fails falls through, in the source, to checks that
cannot match its opening character, and ends at the one-character
fallback; those paths are collapsed to `(none, cs)` here. -/
def flowStep (s : List Char) : Option FlowTok × List Char :=
  match s with
  | [] => (none, [])
  | c :: cs =>
    if isWS c then (none, cs)
    else
      match matchArrowCore (c :: cs) with
      | some n =>
        let m := matchArrowLabel ((c :: cs).drop n)
        (some (FlowTok.arrow (String.mk ((c :: cs).take (n + m)))), (c :: cs).drop (n + m))
      | none =>
        if c = lbrace then
          match findCharIdx rbrace cs with
          | some k =>
            let inner := stripEnds '"' (trimChars (cs.take k))
            (some (FlowTok.node (String.mk inner) FlowShape.diamond), cs.drop (k + 1))
          | none => (none, cs)
        else if c = '"' then
          match findCharIdx '"' cs with
          | some k =>
            (some (FlowTok.node (String.mk (cs.take k)) FlowShape.rect), cs.drop (k + 1))
          | none => (none, cs)
        else if c = '(' then
          if cs.head? = some '"' then
            match findSub2 '"' ')' (cs.drop 1) with
            | some k =>
              (some (FlowTok.node (String.mk ((cs.drop 1).take k)) FlowShape.round),
                (cs.drop 1).drop (k + 2))
            | none => (none, cs)
          else (none, cs)
        else if isIdStart c then
          let rest1 := cs.dropWhile isWordChar
          let sfx := matchIdSuffix rest1
          (some (FlowTok.raw (String.mk ((c :: cs.takeWhile isWordChar) ++ rest1.take sfx))),
            rest1.drop sfx)
        else (none, cs)

/-- The whole scanning loop, with fuel; `flowStep` always shortens the
suffix (claim C10), so fuel `s.length` runs the loop to completion. -/
def scanTokens : Nat → List Char → List FlowTok
  | _, [] => []
  | 0, _ => []
  | f + 1, c :: cs =>
    let r := flowStep (c :: cs)
    r.1.toList ++ scanTokens f r.2

/-- Pass state of `preprocessFlowchart`: the shared `usedIds` and
`nameMapping` globals plus the per-pass `nodeIdMap` label cache. -/
structure FlowState where
  usedIds : List String
  nameMapping : List (String × String)
  nodeIdMap : List (String × String)
deriving Repr, DecidableEq

/-- The allocation path of `getFlowNodeId` (src/app.js lines 378-388):
sanitize, probe `base, base2, base3, ...` against `usedIds` only, then
record the identifier in the used set, the label cache and the name
mapping. -/
def allocFlowFresh (fst : FlowState) (label : String) : String × FlowState :=
  let base := sanitizeName label
  let id := allocLoop (fun c => !(fst.usedIds.contains c)) base (fst.usedIds.length + 1) 0
  (id, ⟨addUsed fst.usedIds id, insertMap fst.nameMapping id label,
        insertMap fst.nodeIdMap label id⟩)

/-- `getFlowNodeId` (src/app.js lines 378-388): serve repeated labels from
the per-pass cache (`if (nodeIdMap[label])` is a truthiness test, so an
empty cached string would re-allocate), otherwise allocate fresh. -/
def getFlowNodeId (fst : FlowState) (label : String) : String × FlowState :=
  match lookupMap fst.nodeIdMap label with
  | some id => if id = "" then allocFlowFresh fst label else (id, fst)
  | none => allocFlowFresh fst label

/-- Shape syntax of a rendered node token (src/app.js lines 492-494). -/
def shapeWrap : FlowShape → String → String
  | FlowShape.diamond, label => "\x7b\"" ++ label ++ "\"\x7d"
  | FlowShape.round, label => "(\"" ++ label ++ "\")"
  | FlowShape.rect, label => "[\"" ++ label ++ "\"]"

/-- Rendering of one token in the rebuild map (src/app.js lines 487-495). -/
def renderFlowTok (fst : FlowState) : FlowTok → String × FlowState
  | FlowTok.arrow r => (" " ++ r ++ " ", fst)
  | FlowTok.raw r => (r, fst)
  | FlowTok.node label shape =>
    let a := getFlowNodeId fst label
    (a.1 ++ shapeWrap shape label, a.2)

/-- Sequential rendering of the token list (the JS `map` over `tokens`
calls `getFlowNodeId` left to right). -/
def renderFlowToks (fst : FlowState) : List FlowTok → String × FlowState
  | [] => ("", fst)
  | t :: ts =>
    let a := renderFlowTok fst t
    let b := renderFlowToks a.2 ts
    (a.1 ++ b.1, b.2)

/-- `preprocessFlowLine` (src/app.js lines 414-498): tokenize the trimmed
line, rebuild it, and collapse multi-space runs. -/
def preprocessFlowLine (fst : FlowState) (line : String) : String × FlowState :=
  let rest := trimChars line.data
  let toks := scanTokens rest.length rest
  let r := renderFlowToks fst toks
  (String.mk (indentOf line.data) ++ String.mk (collapseRuns ' ' r.1.data), r.2)

/-- Next character is whitespace (the `\s` after `flowchart|graph`). -/
def nextIsWS (t : List Char) (n : Nat) : Bool :=
  match charAt t n with
  | some c => isWS c
  | none => false

/-- Word boundary after a keyword of length `n`. -/
def boundaryAt (t : List Char) (n : Nat) : Bool :=
  match charAt t n with
  | some c => !isWordChar c
  | none => true

/-- The passthrough test of the `preprocessFlowchart` line loop
(src/app.js lines 397-403): blanks, comments, the declaration line,
subgraph/end markers and styling directives. -/
def passFlowLine (t : List Char) : Bool :=
  t.isEmpty || ("%%".data).isPrefixOf t ||
  (ciPrefixB ("flowchart".data) t && nextIsWS t 9) ||
  (ciPrefixB ("graph".data) t && nextIsWS t 5) ||
  (ciPrefixB ("subgraph".data) t && boundaryAt t 8) ||
  (ciPrefixB ("end".data) t && boundaryAt t 3) ||
  (("classDef".data).isPrefixOf t && boundaryAt t 8) ||
  (("class".data).isPrefixOf t && boundaryAt t 5) ||
  (("style".data).isPrefixOf t && boundaryAt t 5) ||
  (("click".data).isPrefixOf t && boundaryAt t 5) ||
  (("linkStyle".data).isPrefixOf t && boundaryAt t 9)

/-- Result of one flowchart compile pass. -/
structure FlowResult where
  code : String
  state : FlowState
deriving Repr, DecidableEq

/-- One line of the `preprocessFlowchart` loop. -/
def stepFlow (s : FlowState × List String) (line : String) : FlowState × List String :=
  if passFlowLine (trimChars line.data) then (s.1, s.2 ++ [line])
  else
    let r := preprocessFlowLine s.1 line
    (r.2, s.2 ++ [r.1])

/-- `preprocessFlowchart` (src/app.js lines 372-412): reset the pass
state (including the label cache) and run the line loop. -/
def preprocessFlowchart (code : String) : FlowResult :=
  let lines := splitLines code.data
  let final := lines.foldl (fun s l => stepFlow s (String.mk l)) (⟨[], [], []⟩, [])
  ⟨joinLines final.2, final.1⟩

/-! ### The output name-restorer (src/app.js lines 502-537) -/

/-- Stable insertion, by identifier length descending: a new entry goes
after every entry whose identifier is at least as long, modelling the
stable JS `sort((a, b) => b[0].length - a[0].length)`. -/
def insertByLenDesc (x : String × String) :
    List (String × String) → List (String × String)
  | [] => [x]
  | y :: ys =>
    if x.1.length ≤ y.1.length then y :: insertByLenDesc x ys else x :: y :: ys

/-- `Object.entries(nameMapping).sort(...)`: the insertion-ordered
entries, sorted longest identifier first. -/
def sortByLenDesc (m : List (String × String)) : List (String × String) :=
  m.foldl (fun acc x => insertByLenDesc x acc) []

/-- Substitution of one mapping entry into one text value: the
`includes` guard and `replaceAll` of the restorer's inner loop. -/
def restoreStep (t : String) (p : String × String) : String :=
  if substrB p.1.data t.data then replaceAllStr p.1 p.2 t else t

/-- The restorer's effect on one leaf text value: every mapping entry
applied in longest-first order (src/app.js lines 506-519). -/
def restoreText (m : List (String × String)) (t : String) : String :=
  (sortByLenDesc m).foldl restoreStep t

theorem mem_insertByLenDesc {x y : String × String} {l : List (String × String)}
    (h : y ∈ insertByLenDesc x l) : y = x ∨ y ∈ l := by
  induction l with
  | nil => simpa [insertByLenDesc] using h
  | cons z zs ih =>
    rw [insertByLenDesc] at h
    split at h
    · rcases List.mem_cons.mp h with hz | hz
      · exact Or.inr (hz ▸ List.mem_cons_self _ _)
      · rcases ih hz with h' | h'
        · exact Or.inl h'
        · exact Or.inr (List.mem_cons_of_mem _ h')
    · rcases List.mem_cons.mp h with hz | hz
      · exact Or.inl hz
      · exact Or.inr hz

theorem pairwise_insertByLenDesc {x : String × String} {l : List (String × String)}
    (h : l.Pairwise (fun a b => b.1.length ≤ a.1.length)) :
    (insertByLenDesc x l).Pairwise (fun a b => b.1.length ≤ a.1.length) := by
  induction l with
  | nil => simp [insertByLenDesc]
  | cons y ys ih =>
    rw [insertByLenDesc]
    by_cases hxy : x.1.length ≤ y.1.length
    · rw [if_pos hxy]
      rw [List.pairwise_cons] at h ⊢
      refine ⟨?_, ih h.2⟩
      intro z hz
      rcases mem_insertByLenDesc hz with rfl | hz'
      · exact hxy
      · exact h.1 z hz'
    · rw [if_neg hxy]
      rw [List.pairwise_cons]
      constructor
      · intro z hz
        rw [List.pairwise_cons] at h
        rcases List.mem_cons.mp hz with rfl | hz'
        · omega
        · have := h.1 z hz'
          omega
      · exact h

theorem perm_insertByLenDesc (x : String × String) (l : List (String × String)) :
    (insertByLenDesc x l).Perm (x :: l) := by
  induction l with
  | nil => exact List.Perm.refl _
  | cons y ys ih =>
    rw [insertByLenDesc]
    by_cases hxy : x.1.length ≤ y.1.length
    · rw [if_pos hxy]
      exact (ih.cons y).trans (List.Perm.swap x y ys)
    · rw [if_neg hxy]

theorem pairwise_sortByLenDesc (m : List (String × String)) :
    (sortByLenDesc m).Pairwise (fun a b => b.1.length ≤ a.1.length) := by
  rw [sortByLenDesc]
  suffices h : ∀ acc, acc.Pairwise (fun a b : String × String => b.1.length ≤ a.1.length) →
      (m.foldl (fun acc x => insertByLenDesc x acc) acc).Pairwise
        (fun a b => b.1.length ≤ a.1.length) from h [] (by simp)
  induction m with
  | nil => exact fun acc h => h
  | cons x xs ih => exact fun acc h => ih _ (pairwise_insertByLenDesc h)

theorem perm_sortByLenDesc (m : List (String × String)) : (sortByLenDesc m).Perm m := by
  rw [sortByLenDesc]
  suffices h : ∀ acc, (m.foldl (fun acc x => insertByLenDesc x acc) acc).Perm (m ++ acc) by
    simpa using h []
  induction m with
  | nil => exact fun acc => List.Perm.refl _
  | cons x xs ih =>
    intro acc
    have h1 : ((x :: xs).foldl (fun acc x => insertByLenDesc x acc) acc) =
        xs.foldl (fun acc x => insertByLenDesc x acc) (insertByLenDesc x acc) := rfl
    rw [h1]
    refine (ih _).trans ?_
    refine (List.Perm.append_left xs (perm_insertByLenDesc x acc)).trans ?_
    exact List.perm_middle

theorem strData_inj {s t : String} (h : s.data = t.data) : s = t := by
  cases s
  cases t
  exact congrArg String.mk h

theorem mkData_eq (s : String) : String.mk s.data = s := by
  cases s
  rfl

theorem restoreStep_skip {t : String} {p : String × String}
    (hne : p.1 ≠ t) (hlen : t.length ≤ p.1.length) : restoreStep t p = t := by
  rw [restoreStep]
  split
  · exfalso
    rename_i hsub
    have hle := substrB_length_le hsub
    have hd1 : t.length = t.data.length := rfl
    have hd2 : p.1.length = p.1.data.length := rfl
    have heq : p.1.data = t.data := substrB_eq_of_length hsub (by omega)
    exact hne (strData_inj heq)
  · rfl

theorem restoreStep_none {t : String} {p : String × String}
    (h : substrB p.1.data t.data = false) : restoreStep t p = t := by
  rw [restoreStep, if_neg (by simp [h])]

theorem restoreStep_self {p : String × String} (hne : p.1 ≠ "") :
    restoreStep p.1 p = p.2 := by
  rw [restoreStep, if_pos (substrB_refl p.1.data)]
  have hd : p.1.data ≠ [] := by
    intro hd
    exact hne (strData_inj (t := "") hd)
  rw [replaceAllStr, replaceAllChars_self hd]

theorem restore_foldl_skip {l : List (String × String)} {id : String}
    (h : ∀ p ∈ l, p.1 ≠ id ∧ id.length ≤ p.1.length) :
    l.foldl restoreStep id = id := by
  induction l with
  | nil => rfl
  | cons p ps ih =>
    rw [List.foldl_cons,
      restoreStep_skip (h p (List.mem_cons_self _ _)).1 (h p (List.mem_cons_self _ _)).2]
    exact ih (fun q hq => h q (List.mem_cons_of_mem _ hq))

theorem restore_foldl_keep {l : List (String × String)} {d : String}
    (h : ∀ p ∈ l, substrB p.1.data d.data = false) :
    l.foldl restoreStep d = d := by
  induction l with
  | nil => rfl
  | cons p ps ih =>
    rw [List.foldl_cons, restoreStep_none (h p (List.mem_cons_self _ _))]
    exact ih (fun q hq => h q (List.mem_cons_of_mem _ hq))

/-- Core restoration lemma: over a mapping with duplicate-free, non-empty
identifiers in which no other identifier occurs inside a display name, the
longest-first sweep maps each identifier exactly to its display name. -/
theorem restoreText_mem {m : List (String × String)}
    (hnd : (mapKeys m).Nodup)
    (hne : ∀ p ∈ m, p.1 ≠ "")
    (hcross : ∀ p ∈ m, ∀ q ∈ m, q.1 ≠ p.1 → substrB q.1.data p.2.data = false)
    {p : String × String} (hp : p ∈ m) : restoreText m p.1 = p.2 := by
  have hperm := perm_sortByLenDesc m
  have hps : p ∈ sortByLenDesc m := hperm.mem_iff.mpr hp
  obtain ⟨l1, l2, hs⟩ := List.append_of_mem hps
  have hpair := pairwise_sortByLenDesc m
  have hknd : (mapKeys (sortByLenDesc m)).Nodup :=
    (hperm.map Prod.fst).nodup_iff.mpr hnd
  rw [hs] at hpair hknd
  rw [mapKeys, List.map_append, List.map_cons] at hknd
  have hnotl1 : p.1 ∉ l1.map Prod.fst := by
    have hdisj := (List.nodup_append.mp hknd).2.2
    intro hmem
    exact hdisj hmem (List.mem_cons_self _ _)
  have hnotl2 : p.1 ∉ l2.map Prod.fst := by
    have hmid := (List.nodup_append.mp hknd).2.1
    rw [List.nodup_cons] at hmid
    exact hmid.1
  rw [restoreText, hs, List.foldl_append, List.foldl_cons]
  have h1 : l1.foldl restoreStep p.1 = p.1 := by
    refine restore_foldl_skip (fun q hq => ⟨?_, ?_⟩)
    · intro he
      exact hnotl1 (he ▸ List.mem_map.mpr ⟨q, hq, rfl⟩)
    · have := (List.pairwise_append.mp hpair).2.2 q hq p (List.mem_cons_self _ _)
      exact this
  rw [h1, restoreStep_self (hne p hp)]
  refine restore_foldl_keep (fun q hq => ?_)
  have hqs : q ∈ sortByLenDesc m := by
    rw [hs]
    exact List.mem_append.mpr (Or.inr (List.mem_cons_of_mem _ hq))
  have hqm : q ∈ m := hperm.mem_iff.mp hqs
  refine hcross p hp q hqm ?_
  intro he
  exact hnotl2 (he ▸ List.mem_map.mpr ⟨q, hq, rfl⟩)

/-! ### Well-formedness across whole compile passes -/

theorem preprocessERAttribute_wf (st : AllocState) (line : String) (h : wfA st) :
    wfA (preprocessERAttribute st line).2 := by
  rw [preprocessERAttribute]
  split
  · exact getUniqueId_wf _ _ h
  · exact h

theorem preprocessERRelationship_wf (st : AllocState) (line : String) (h : wfA st) :
    wfA (preprocessERRelationship st line).2 := by
  rw [preprocessERRelationship]
  split
  · exact h
  · exact getUniqueId_wf _ _ (getUniqueId_wf _ _ h)

theorem stepER_wf (s : ERState) (line : String) (h : wfA s.alloc) :
    wfA (stepER s line).alloc := by
  rw [stepER]
  split
  · exact h
  · split
    · exact h
    · split
      · exact h
      · split
        · exact h
        · split
          · exact preprocessERAttribute_wf _ _ h
          · split
            · exact getUniqueId_wf _ _ h
            · split
              · exact preprocessERRelationship_wf _ _ h
              · exact h

theorem foldER_wf (lines : List (List Char)) :
    ∀ s : ERState, wfA s.alloc →
      wfA (lines.foldl (fun s l => stepER s (String.mk l)) s).alloc := by
  induction lines with
  | nil => exact fun s h => h
  | cons l ls ih => exact fun s h => ih _ (stepER_wf s _ h)

theorem wfA_init : wfA ⟨[], []⟩ := by
  refine ⟨List.nodup_nil, ?_, ?_⟩ <;> intro k hk <;> simp [mapKeys] at hk

theorem preprocessER_wf (code : String) : wfA (preprocessER code).state :=
  foldER_wf _ _ wfA_init

/-- A matched declaration line starts with a character lowercasing to
`e`, so it is neither blank nor a `%%` comment. -/
theorem matchERDecl_head (t : List Char) (dopt : Option String)
    (h : matchERDecl t = some dopt) :
    ∃ c t2, t = c :: t2 ∧ Char.toLower c = 'e' := by
  simp only [matchERDecl] at h
  by_cases h1 : t.map Char.toLower = ("erdiagram").data
  · cases t with
    | nil => exact absurd h1 (by decide)
    | cons c t2 =>
      have h4 : Char.toLower c :: t2.map Char.toLower = 'e' :: ("rdiagram").data := h1
      injection h4 with h5 h6
      exact ⟨c, t2, rfl, h5⟩
  · rw [if_neg h1] at h
    by_cases h2 : ciPrefixB (("erdiagram").data) t = true
    · simp only [ciPrefixB, beq_iff_eq] at h2
      have h9 : ((("erdiagram").data).length) = 9 := by decide
      rw [h9] at h2
      cases t with
      | nil => exact absurd h2 (by decide)
      | cons c t2 =>
        have h4 : Char.toLower c :: (t2.take 8).map Char.toLower =
            'e' :: ("rdiagram").data := h2
        injection h4 with h5 h6
        exact ⟨c, t2, rfl, h5⟩
    · rw [if_neg h2] at h
      exact absurd h (by simp)

/-- A matched standalone direction statement lowercases its first nine
characters to the keyword. -/
theorem matchDirection_take (t : List Char) (d : String)
    (h : matchDirection t = some d) :
    (t.take 9).map Char.toLower = ("direction").data := by
  simp only [matchDirection] at h
  by_cases h2 : ciPrefixB (("direction").data) t = true
  · simp only [ciPrefixB, beq_iff_eq] at h2
    have h9 : ((("direction").data).length) = 9 := by decide
    rw [h9] at h2
    exact h2
  · rw [if_neg h2] at h
    exact absurd h (by simp)

/-- A matched standalone direction statement starts with a character
lowercasing to `d`. -/
theorem matchDirection_head (t : List Char) (d : String)
    (h : matchDirection t = some d) :
    ∃ c t2, t = c :: t2 ∧ Char.toLower c = 'd' := by
  have ht := matchDirection_take t d h
  cases t with
  | nil => exact absurd ht (by decide)
  | cons c t2 =>
    have h4 : Char.toLower c :: (t2.take 8).map Char.toLower =
        'd' :: ("irection").data := ht
    injection h4 with h5 h6
    exact ⟨c, t2, rfl, h5⟩

/-- A line matching the standalone direction statement cannot also match
the declaration regex: the nine-character keywords differ. -/
theorem matchERDecl_of_matchDirection (t : List Char) (d : String)
    (h : matchDirection t = some d) : matchERDecl t = none := by
  have ht := matchDirection_take t d h
  have hA : ¬ (t.map Char.toLower = ("erdiagram").data) := by
    intro hmap
    have h5 : (t.take 9).map Char.toLower = (("erdiagram").data).take 9 := by
      rw [List.map_take, hmap]
    rw [ht] at h5
    exact absurd h5 (by decide)
  have hB : ¬ (ciPrefixB (("erdiagram").data) t = true) := by
    intro hci
    simp only [ciPrefixB, beq_iff_eq] at hci
    have h9 : ((("erdiagram").data).length) = 9 := by decide
    rw [h9] at hci
    rw [ht] at hci
    exact absurd hci (by decide)
  rw [matchERDecl, if_neg hA, if_neg hB]

/-- A trimmed line starting with a character other than `%` fails the
blank-or-comment guard of the `preprocessER` loop. -/
theorem erGuard_false (t : List Char) (c : Char) (t2 : List Char)
    (he : t = c :: t2) (hc : Char.toLower c ≠ '%') :
    ¬ (t = [] ∨ (("%%").data).isPrefixOf t = true) := by
  subst he
  intro hor
  rcases hor with h | h
  · exact absurd h (by simp)
  · have h4 : (('%' == c) && ((("%").data).isPrefixOf t2)) = true := h
    rw [Bool.and_eq_true] at h4
    have h5 : '%' = c := eq_of_beq h4.1
    apply hc
    rw [← h5]
    decide

/-- A line assigning no direction leaves the captured direction of the
state unchanged, whatever else the step does. -/
theorem stepER_direction_none (s : ERState) (line : String)
    (h : lineDirToken line.data = none) :
    (stepER s line).direction = s.direction := by
  simp only [lineDirToken] at h
  rw [stepER]
  split
  · rfl
  · rename_i hguard
    rw [if_neg hguard] at h
    split
    · rename_i dopt heq
      cases dopt with
      | some d => simp [heq] at h
      | none => rfl
    · rename_i hdecl
      split
      · rename_i d heq
        simp [hdecl, heq] at h
      · split
        · rfl
        · split
          · rfl
          · split
            · rfl
            · split
              · rfl
              · rfl

/-- A line assigning a direction token sets the captured direction of
the state to exactly that token. -/
theorem stepER_direction_some (s : ERState) (line : String) (d : String)
    (h : lineDirToken line.data = some d) :
    (stepER s line).direction = some d := by
  simp only [lineDirToken] at h
  rw [stepER]
  split
  · rename_i hguard
    rw [if_pos hguard] at h
    simp at h
  · rename_i hguard
    rw [if_neg hguard] at h
    split
    · rename_i dopt heq
      cases dopt with
      | some d2 =>
        simp [heq] at h
        subst h
        rfl
      | none =>
        simp [heq] at h
    · rename_i hdecl
      split
      · rename_i d2 heq
        simp [hdecl, heq] at h
        subst h
        rfl
      · rename_i hdir
        simp [hdecl, hdir] at h

/-- One step of the ER line machine updates the captured direction by
exactly the line's direction assignment. -/
theorem stepER_direction (s : ERState) (line : String) :
    (stepER s line).direction = dirApply s.direction (lineDirToken line.data) := by
  cases hl : lineDirToken line.data with
  | none => exact stepER_direction_none s line hl
  | some d => exact stepER_direction_some s line d hl

/-- Over any list of lines the final captured direction is the fold of
the per-line direction assignments, last writer winning. -/
theorem foldER_direction (lines : List (List Char)) :
    ∀ s : ERState,
      (lines.foldl (fun s l => stepER s (String.mk l)) s).direction =
        lines.foldl (fun a l => dirApply a (lineDirToken l)) s.direction := by
  induction lines with
  | nil => intro s; rfl
  | cons l ls ih =>
    intro s
    simp only [List.foldl_cons]
    rw [ih]
    congr 1
    exact stepER_direction s (String.mk l)

/-- A suffix of lines none of which assigns a direction leaves the
captured direction untouched. -/
theorem foldDir_const (post : List (List Char)) (a : Option String)
    (h : ∀ l ∈ post, lineDirToken l = none) :
    post.foldl (fun a l => dirApply a (lineDirToken l)) a = a := by
  induction post generalizing a with
  | nil => rfl
  | cons l ls ih =>
    simp only [List.foldl_cons]
    rw [h l (by simp)]
    exact ih a (fun x hx => h x (by simp [hx]))

/-- A raw line whose trimmed content matches the standalone direction
statement assigns exactly that token. -/
theorem lineDirToken_of_matchDirection (l : List Char) (d : String)
    (h : matchDirection (trimChars l) = some d) :
    lineDirToken l = some d := by
  obtain ⟨c, t2, he, hc⟩ := matchDirection_head _ _ h
  have hde := matchERDecl_of_matchDirection _ _ h
  simp only [lineDirToken]
  rw [if_neg (erGuard_false _ c t2 he (by rw [hc]; decide))]
  split
  · rename_i d3 heq
    rw [hde] at heq
    exact absurd heq (by simp)
  · rename_i heq
    rw [hde] at heq
    exact absurd heq (by simp)
  · exact h

/-- Well-formedness of the flowchart pass state: the name-mapping
invariants of `wfA`, plus non-empty cached identifiers in the label
cache. -/
def wfF (fst : FlowState) : Prop :=
  (mapKeys fst.nameMapping).Nodup ∧
  (∀ k ∈ mapKeys fst.nameMapping, k ∈ fst.usedIds) ∧
  (∀ k ∈ mapKeys fst.nameMapping, k ≠ "") ∧
  (∀ p ∈ fst.nodeIdMap, p.2 ≠ "")

theorem mem_insertMap {m : List (String × String)} {k v : String} {p : String × String}
    (h : p ∈ insertMap m k v) : p ∈ m ∨ p = (k, v) := by
  rw [insertMap] at h
  split at h
  · rcases List.mem_map.mp h with ⟨q, hq, he⟩
    by_cases hqk : q.1 = k
    · right
      rw [← he, if_pos (by simpa using hqk)]
    · left
      rwa [← he, if_neg (by simpa using hqk)]
  · rcases List.mem_append.mp h with h' | h'
    · exact Or.inl h'
    · exact Or.inr (List.mem_singleton.mp h')

theorem allocFlowFresh_not_used (fst : FlowState) (label : String) :
    (allocFlowFresh fst label).1 ∉ fst.usedIds := by
  have hex := @exists_ok_cand (fun c => !(fst.usedIds.contains c))
    (sanitizeName label) fst.usedIds ?_
  · obtain ⟨i, hi, hok⟩ := hex
    have hres := @allocLoop_ok_of_exists (fun c => !(fst.usedIds.contains c))
      (sanitizeName label) (fst.usedIds.length + 1) 0
      ⟨i, hi, by simpa using hok⟩
    intro hmem
    have hres' : (!(fst.usedIds.contains ((allocFlowFresh fst label).1))) = true := hres
    have hc : fst.usedIds.contains ((allocFlowFresh fst label).1) = true := by
      simpa using hmem
    rw [hc] at hres'
    simp at hres'
  · intro i hfalse
    simp only [Bool.not_eq_false'] at hfalse
    simpa using hfalse

theorem allocFlowFresh_ne_empty (fst : FlowState) (label : String) :
    (allocFlowFresh fst label).1 ≠ "" := by
  obtain ⟨i, hi⟩ := allocLoop_mem_cand (fun c => !(fst.usedIds.contains c))
    (sanitizeName label) (fst.usedIds.length + 1) 0
  intro h
  rw [allocFlowFresh] at h
  simp only at h
  rw [hi] at h
  exact cand_data_ne_nil (sanitizeName_data_ne_nil label) _ (congrArg String.data h)

theorem allocFlowFresh_wf {fst : FlowState} (label : String) (h : wfF fst) :
    wfF (allocFlowFresh fst label).2 := by
  obtain ⟨hnd, hmem, hne, hval⟩ := h
  have hfresh := allocFlowFresh_not_used fst label
  have hnotkey : (allocFlowFresh fst label).1 ∉ mapKeys fst.nameMapping :=
    fun hk => hfresh (hmem _ hk)
  refine ⟨?_, ?_, ?_, ?_⟩
  · show (mapKeys (insertMap fst.nameMapping (allocFlowFresh fst label).1 label)).Nodup
    rw [mapKeys_insertMap_of_not_mem label hnotkey]
    exact hnd.append (List.nodup_singleton _) (List.disjoint_singleton.mpr hnotkey)
  · intro k hk
    rw [show (allocFlowFresh fst label).2.nameMapping =
      insertMap fst.nameMapping (allocFlowFresh fst label).1 label from rfl,
      mapKeys_insertMap_of_not_mem label hnotkey] at hk
    rcases List.mem_append.mp hk with hold | hnew
    · exact mem_addUsed_of_mem _ (hmem _ hold)
    · rw [List.mem_singleton.mp hnew]
      exact mem_addUsed_self _ _
  · intro k hk
    rw [show (allocFlowFresh fst label).2.nameMapping =
      insertMap fst.nameMapping (allocFlowFresh fst label).1 label from rfl,
      mapKeys_insertMap_of_not_mem label hnotkey] at hk
    rcases List.mem_append.mp hk with hold | hnew
    · exact hne _ hold
    · rw [List.mem_singleton.mp hnew]
      exact allocFlowFresh_ne_empty fst label
  · intro p hp
    rcases mem_insertMap hp with hold | hnew
    · exact hval _ hold
    · rw [hnew]
      exact allocFlowFresh_ne_empty fst label

theorem getFlowNodeId_wf {fst : FlowState} (label : String) (h : wfF fst) :
    wfF (getFlowNodeId fst label).2 := by
  rw [getFlowNodeId]
  split
  · split
    · exact allocFlowFresh_wf label h
    · exact h
  · exact allocFlowFresh_wf label h

theorem getFlowNodeId_post (fst : FlowState) (label : String) :
    lookupMap (getFlowNodeId fst label).2.nodeIdMap label =
      some (getFlowNodeId fst label).1 ∧ (getFlowNodeId fst label).1 ≠ "" := by
  rcases hl : lookupMap fst.nodeIdMap label with _ | id
  · simp only [getFlowNodeId, hl]
    exact ⟨lookupMap_insertMap_self _ _ _, allocFlowFresh_ne_empty fst label⟩
  · by_cases hid : id = ""
    · simp only [getFlowNodeId, hl, if_pos hid]
      exact ⟨lookupMap_insertMap_self _ _ _, allocFlowFresh_ne_empty fst label⟩
    · simp only [getFlowNodeId, hl, if_neg hid]
      exact ⟨trivial, hid⟩

theorem getFlowNodeId_bind_stable {fst : FlowState} {L r : String}
    (hbind : lookupMap fst.nodeIdMap L = some r) (hr : r ≠ "") (label : String) :
    lookupMap (getFlowNodeId fst label).2.nodeIdMap L = some r := by
  rcases hl : lookupMap fst.nodeIdMap label with _ | id
  · have hne : L ≠ label := by
      intro he
      rw [he, hl] at hbind
      exact Option.noConfusion hbind
    simp only [getFlowNodeId, hl]
    rw [show (allocFlowFresh fst label).2.nodeIdMap =
      insertMap fst.nodeIdMap label (allocFlowFresh fst label).1 from rfl,
      lookupMap_insertMap_ne _ _ _ _ hne]
    exact hbind
  · by_cases hid : id = ""
    · have hne : L ≠ label := by
        intro he
        rw [he, hl] at hbind
        injection hbind with hb
        exact hr (hb ▸ hid)
      simp only [getFlowNodeId, hl, if_pos hid]
      rw [show (allocFlowFresh fst label).2.nodeIdMap =
        insertMap fst.nodeIdMap label (allocFlowFresh fst label).1 from rfl,
        lookupMap_insertMap_ne _ _ _ _ hne]
      exact hbind
    · simp only [getFlowNodeId, hl, if_neg hid]
      exact hbind

theorem getFlowNodeId_cached {fst : FlowState} {label r : String}
    (hbind : lookupMap fst.nodeIdMap label = some r) (hr : r ≠ "") :
    (getFlowNodeId fst label).1 = r := by
  simp only [getFlowNodeId, hbind, if_neg hr]

theorem renderFlowTok_wf {fst : FlowState} (t : FlowTok) (h : wfF fst) :
    wfF (renderFlowTok fst t).2 := by
  cases t with
  | arrow r => exact h
  | raw r => exact h
  | node label shape => exact getFlowNodeId_wf label h

theorem renderFlowToks_wf (ts : List FlowTok) :
    ∀ fst : FlowState, wfF fst → wfF (renderFlowToks fst ts).2 := by
  induction ts with
  | nil => exact fun fst h => h
  | cons t ts ih => exact fun fst h => ih _ (renderFlowTok_wf t h)

theorem preprocessFlowLine_wf (fst : FlowState) (line : String) (h : wfF fst) :
    wfF (preprocessFlowLine fst line).2 :=
  renderFlowToks_wf _ fst h

theorem stepFlow_wf (s : FlowState × List String) (line : String) (h : wfF s.1) :
    wfF (stepFlow s line).1 := by
  rw [stepFlow]
  split
  · exact h
  · exact preprocessFlowLine_wf _ _ h

theorem foldFlow_wf (lines : List (List Char)) :
    ∀ s : FlowState × List String, wfF s.1 →
      wfF (lines.foldl (fun s l => stepFlow s (String.mk l)) s).1 := by
  induction lines with
  | nil => exact fun s h => h
  | cons l ls ih => exact fun s h => ih _ (stepFlow_wf s _ h)

theorem wfF_init : wfF ⟨[], [], []⟩ := by
  refine ⟨List.nodup_nil, ?_, ?_, ?_⟩ <;> intro k hk <;> simp [mapKeys] at hk

theorem preprocessFlowchart_wf (code : String) : wfF (preprocessFlowchart code).state :=
  foldFlow_wf _ _ wfF_init

/-! ### Call sequences within one pass -/

/-- Identifiers returned by a sequence of `getUniqueId` calls (display
name, optional `minLength`), threading the pass state left to right. -/
def runAllocAux (st : AllocState) : List (String × Option Nat) → List String
  | [] => []
  | (d, mo) :: rest =>
    (getUniqueId st d mo).1 :: runAllocAux (getUniqueId st d mo).2 rest

/-- One compile pass starts from freshly reset `usedIds`/`nameMapping`. -/
def runAlloc (calls : List (String × Option Nat)) : List String :=
  runAllocAux ⟨[], []⟩ calls

theorem runAllocAux_det (calls : List (String × Option Nat)) :
    ∀ (st : AllocState) (r d : String), r ∈ st.usedIds →
      lookupMap st.nameMapping r = some d →
      ∀ (j : Nat) (dj : String) (mj : Option Nat) (rj : String),
        calls[j]? = some (dj, mj) → (runAllocAux st calls)[j]? = some rj →
        rj = r → dj = d := by
  induction calls with
  | nil =>
    intro st r d _ _ j dj mj rj hc
    simp at hc
  | cons c rest ih =>
    rcases c with ⟨d0, m0⟩
    intro st r d hr hl j dj mj rj hc hres hrr
    cases j with
    | zero =>
      rw [List.getElem?_cons_zero] at hc
      injection hc with hc
      rw [runAllocAux, List.getElem?_cons_zero] at hres
      injection hres with hres
      have hd0 : d0 = dj := congrArg Prod.fst hc
      have h2 : (getUniqueId st d0 m0).1 = r := by rw [hres, hrr]
      rw [← hd0]
      exact getUniqueId_lookup_det hr hl h2
    | succ j =>
      rw [List.getElem?_cons_succ] at hc
      rw [runAllocAux, List.getElem?_cons_succ] at hres
      refine ih _ r d (getUniqueId_used_mono _ _ hr) ?_ j dj mj rj hc hres hrr
      rw [getUniqueId_frozen d0 m0 hr]
      exact hl

theorem runAllocAux_unique (calls : List (String × Option Nat)) :
    ∀ (st : AllocState) (i j : Nat) (di dj : String) (mi mj : Option Nat)
      (ri rj : String), i < j →
      calls[i]? = some (di, mi) → calls[j]? = some (dj, mj) →
      (runAllocAux st calls)[i]? = some ri → (runAllocAux st calls)[j]? = some rj →
      ri = rj → di = dj := by
  induction calls with
  | nil =>
    intro st i j di dj mi mj ri rj _ hci
    simp at hci
  | cons c rest ih =>
    rcases c with ⟨d0, m0⟩
    intro st i j di dj mi mj ri rj hij hci hcj hri hrj hrr
    cases i with
    | zero =>
      rw [List.getElem?_cons_zero] at hci
      injection hci with hci
      rw [runAllocAux, List.getElem?_cons_zero] at hri
      injection hri with hri
      cases j with
      | zero => omega
      | succ j =>
        rw [List.getElem?_cons_succ] at hcj
        rw [runAllocAux, List.getElem?_cons_succ] at hrj
        have hd0 : d0 = di := congrArg Prod.fst hci
        have hdj := runAllocAux_det rest (getUniqueId st d0 m0).2
          (getUniqueId st d0 m0).1 d0 (getUniqueId_post_used st d0 m0)
          (getUniqueId_post_lookup st d0 m0) j dj mj rj hcj hrj
          (by rw [← hrr, ← hri])
        rw [hdj, hd0]
    | succ i =>
      cases j with
      | zero => omega
      | succ j =>
        rw [List.getElem?_cons_succ] at hci hcj
        rw [runAllocAux, List.getElem?_cons_succ] at hri hrj
        exact ih _ i j di dj mi mj ri rj (by omega) hci hcj hri hrj hrr

theorem runAllocAux_follow (calls : List (String × Option Nat)) :
    ∀ (st₂ st₁ : AllocState) (d : String) (mo : Option Nat) (r : String),
      (getUniqueId st₁ d mo).1 = r → reach (getUniqueId st₁ d mo).2 st₂ →
      ∀ (k : Nat), calls[k]? = some (d, mo) → (runAllocAux st₂ calls)[k]? = some r := by
  induction calls with
  | nil =>
    intro st₂ st₁ d mo r _ _ k hk
    simp at hk
  | cons c rest ih =>
    rcases c with ⟨d0, m0⟩
    intro st₂ st₁ d mo r h1 hreach k hk
    cases k with
    | zero =>
      rw [List.getElem?_cons_zero] at hk
      injection hk with hk
      have hd0 : d0 = d := congrArg Prod.fst hk
      have hm0 : m0 = mo := congrArg Prod.snd hk
      rw [runAllocAux, List.getElem?_cons_zero, hd0, hm0]
      exact congrArg some (getUniqueId_stable h1 hreach)
    | succ k =>
      rw [List.getElem?_cons_succ] at hk
      rw [runAllocAux, List.getElem?_cons_succ]
      exact ih _ st₁ d mo r h1 (reach_trans hreach (reach_step st₂ d0 m0)) k hk

theorem runAllocAux_stable (calls : List (String × Option Nat)) :
    ∀ (st : AllocState) (i j : Nat) (d : String) (mo : Option Nat), i < j →
      calls[i]? = some (d, mo) → calls[j]? = some (d, mo) →
      ∀ ri rj, (runAllocAux st calls)[i]? = some ri →
        (runAllocAux st calls)[j]? = some rj → ri = rj := by
  induction calls with
  | nil =>
    intro st i j d mo _ hci
    simp at hci
  | cons c rest ih =>
    rcases c with ⟨d0, m0⟩
    intro st i j d mo hij hci hcj ri rj hri hrj
    cases i with
    | zero =>
      rw [List.getElem?_cons_zero] at hci
      injection hci with hci
      rw [runAllocAux, List.getElem?_cons_zero] at hri
      injection hri with hri
      cases j with
      | zero => omega
      | succ j =>
        rw [List.getElem?_cons_succ] at hcj
        rw [runAllocAux, List.getElem?_cons_succ] at hrj
        have hd0 : d0 = d := congrArg Prod.fst hci
        have hm0 : m0 = mo := congrArg Prod.snd hci
        have := runAllocAux_follow rest (getUniqueId st d0 m0).2 st d mo
          (getUniqueId st d0 m0).1 (by rw [hd0, hm0]) (by rw [hd0, hm0]; exact reach_refl _)
          j hcj
        rw [this] at hrj
        injection hrj with hrj
        rw [← hrj, ← hri]
    | succ i =>
      cases j with
      | zero => omega
      | succ j =>
        rw [List.getElem?_cons_succ] at hci hcj
        rw [runAllocAux, List.getElem?_cons_succ] at hri hrj
        exact ih _ i j d mo (by omega) hci hcj ri rj hri hrj

/-- Identifiers returned by a sequence of `getFlowNodeId` calls within one
flowchart pass. -/
def runFlowIds (fst : FlowState) : List String → List String
  | [] => []
  | L :: ls =>
    (getFlowNodeId fst L).1 :: runFlowIds (getFlowNodeId fst L).2 ls

theorem runFlowIds_follow (labels : List String) :
    ∀ (fst : FlowState) (L r : String), lookupMap fst.nodeIdMap L = some r → r ≠ "" →
      ∀ (k : Nat), labels[k]? = some L → (runFlowIds fst labels)[k]? = some r := by
  induction labels with
  | nil =>
    intro fst L r _ _ k hk
    simp at hk
  | cons L0 ls ih =>
    intro fst L r hbind hr k hk
    cases k with
    | zero =>
      rw [List.getElem?_cons_zero] at hk
      injection hk with hk
      rw [runFlowIds, List.getElem?_cons_zero, hk]
      exact congrArg some (getFlowNodeId_cached hbind hr)
    | succ k =>
      rw [List.getElem?_cons_succ] at hk
      rw [runFlowIds, List.getElem?_cons_succ]
      exact ih _ L r (getFlowNodeId_bind_stable hbind hr L0) hr k hk

theorem runFlowIds_same (labels : List String) :
    ∀ (fst : FlowState) (i j : Nat) (L : String), i < j →
      labels[i]? = some L → labels[j]? = some L →
      ∀ ri rj, (runFlowIds fst labels)[i]? = some ri →
        (runFlowIds fst labels)[j]? = some rj → ri = rj := by
  induction labels with
  | nil =>
    intro fst i j L _ hci
    simp at hci
  | cons L0 ls ih =>
    intro fst i j L hij hci hcj ri rj hri hrj
    cases i with
    | zero =>
      rw [List.getElem?_cons_zero] at hci
      injection hci with hci
      rw [runFlowIds, List.getElem?_cons_zero] at hri
      injection hri with hri
      cases j with
      | zero => omega
      | succ j =>
        rw [List.getElem?_cons_succ] at hcj
        rw [runFlowIds, List.getElem?_cons_succ] at hrj
        obtain ⟨hpost, hpne⟩ := getFlowNodeId_post fst L0
        have := runFlowIds_follow ls (getFlowNodeId fst L0).2 L0
          (getFlowNodeId fst L0).1 hpost hpne j (hci ▸ hcj)
        rw [this] at hrj
        injection hrj with hrj
        rw [← hrj, ← hri]
    | succ i =>
      cases j with
      | zero => omega
      | succ j =>
        rw [List.getElem?_cons_succ] at hci hcj
        rw [runFlowIds, List.getElem?_cons_succ] at hri hrj
        exact ih _ i j L (by omega) hci hcj ri rj hri hrj

/-! ### Progress of the flow-line tokenizer -/

theorem matchArrowCore_pos {s : List Char} {n : Nat}
    (h : matchArrowCore s = some n) : 1 ≤ n := by
  cases s with
  | nil => simp [matchArrowCore] at h
  | cons c rest =>
    rw [matchArrowCore] at h
    by_cases hc : c = '-'
    · rw [if_pos hc] at h
      by_cases hd : 1 + countRun '-' rest ≥ 2
      · rw [if_pos hd] at h
        injection h with h
        split at h <;> omega
      · rw [if_neg hd] at h
        by_cases he : countRun '.' rest ≥ 1
        · rw [if_pos he] at h
          split at h
          · injection h with h
            split at h <;> omega
          · injection h with h
            omega
        · rw [if_neg he] at h
          exact Option.noConfusion h
    · rw [if_neg hc] at h
      by_cases hc2 : c = '='
      · rw [if_pos hc2] at h
        by_cases hd : 1 + countRun '=' rest ≥ 2
        · rw [if_pos hd] at h
          injection h with h
          split at h <;> omega
        · rw [if_neg hd] at h
          exact Option.noConfusion h
      · rw [if_neg hc2] at h
        exact Option.noConfusion h

theorem flowStep_progress : ∀ (s : List Char), s ≠ [] →
    (flowStep s).2.length < s.length := by
  intro s hs
  cases s with
  | nil => exact absurd rfl hs
  | cons c cs =>
    rw [flowStep]
    by_cases hw : isWS c = true
    · rw [if_pos hw]
      simp
    · rw [if_neg hw]
      split
      · rename_i n ha
        have hn := matchArrowCore_pos ha
        simp only [List.length_drop, List.length_cons]
        omega
      · by_cases hb : c = lbrace
        · rw [if_pos hb]
          split
          · rename_i k hf
            simp only [List.length_drop, List.length_cons]
            omega
          · simp
        · rw [if_neg hb]
          by_cases hq : c = '"'
          · rw [if_pos hq]
            split
            · rename_i k hf
              simp only [List.length_drop, List.length_cons]
              omega
            · simp
          · rw [if_neg hq]
            by_cases hr : c = '('
            · rw [if_pos hr]
              by_cases hh : cs.head? = some '"'
              · rw [if_pos hh]
                split
                · rename_i k hf
                  simp only [List.length_drop, List.length_cons]
                  omega
                · simp
              · rw [if_neg hh]
                simp
            · rw [if_neg hr]
              by_cases hid : isIdStart c = true
              · rw [if_pos hid]
                simp only [List.length_drop, List.length_cons]
                have hdw : (cs.dropWhile isWordChar).length ≤ cs.length :=
                  (List.dropWhile_sublist _).length_le
                omega
              · rw [if_neg hid]
                simp

theorem scanTokens_fuel_ext : ∀ (n : Nat) (s : List Char), s.length ≤ n →
    ∀ f g, s.length ≤ f → s.length ≤ g → scanTokens f s = scanTokens g s := by
  intro n
  induction n with
  | zero =>
    intro s hs f g _ _
    have : s = [] := List.length_eq_zero.mp (by omega)
    subst this
    cases f <;> cases g <;> rfl
  | succ n ih =>
    intro s hs f g hf hg
    cases s with
    | nil => cases f <;> cases g <;> rfl
    | cons c cs =>
      cases f with
      | zero => simp at hf
      | succ f =>
        cases g with
        | zero => simp at hg
        | succ g =>
          rw [scanTokens, scanTokens]
          have hprog := flowStep_progress (c :: cs) (by simp)
          simp only [List.length_cons] at hprog hf hg
          have hs' : cs.length + 1 ≤ n + 1 := by
            simpa using hs
          congr 1
          refine ih _ ?_ f g ?_ ?_ <;> omega

/-! ### Claim support -/

/-- The side condition of the restoration round trip: no display name in
the mapping contains a substring equal to another identifier of the same
mapping. -/
def noCrossSub (m : List (String × String)) : Bool :=
  m.all (fun p => m.all (fun q => q.1 == p.1 || !(substrB q.1.data p.2.data)))

theorem noCrossSub_spec {m : List (String × String)} (h : noCrossSub m = true) :
    ∀ p ∈ m, ∀ q ∈ m, q.1 ≠ p.1 → substrB q.1.data p.2.data = false := by
  intro p hp q hq hne
  rw [noCrossSub, List.all_eq_true] at h
  have h2 := h p hp
  rw [List.all_eq_true] at h2
  have h3 := h2 q hq
  rcases Bool.or_eq_true_iff.mp h3 with h4 | h4
  · exact absurd (by simpa using h4) hne
  · simpa using h4

theorem empty_append_str (s : String) : "" ++ s = s :=
  strData_inj (by rw [String.data_append]; rfl)

/-! ### The claims -/

/-- C1.  Restoration round-trip: for any ER or flowchart source in which
no display name contains a substring equal to another identifier of the
same pass, running the matching preprocessor and then applying the
restorer's longest-first substitution to a rendered occurrence of any
allocated identifier recovers that identifier's display name exactly. -/
theorem restoration_round_trip :
    (∀ (code : String) (p : String × String),
      noCrossSub (preprocessER code).state.nameMapping = true →
      p ∈ (preprocessER code).state.nameMapping →
      restoreText (preprocessER code).state.nameMapping p.1 = p.2) ∧
    (∀ (code : String) (p : String × String),
      noCrossSub (preprocessFlowchart code).state.nameMapping = true →
      p ∈ (preprocessFlowchart code).state.nameMapping →
      restoreText (preprocessFlowchart code).state.nameMapping p.1 = p.2) := by
  constructor
  · intro code p hcross hp
    obtain ⟨hnd, hmem, hne⟩ := preprocessER_wf code
    exact restoreText_mem hnd (fun q hq => hne q.1 (List.mem_map.mpr ⟨q, hq, rfl⟩))
      (noCrossSub_spec hcross) hp
  · intro code p hcross hp
    obtain ⟨hnd, hmem, hne, _⟩ := preprocessFlowchart_wf code
    exact restoreText_mem hnd (fun q hq => hne q.1 (List.mem_map.mpr ⟨q, hq, rfl⟩))
      (noCrossSub_spec hcross) hp

/-- Witness for C1: one concrete ER pass and one concrete flowchart pass,
each restored byte-for-byte. -/
theorem restoration_round_trip_witness :
    (noCrossSub (preprocessER ("erDiagram\nA B \x7b\n\x7d")).state.nameMapping = true ∧
      (("A_B", "A B") : String × String) ∈
        (preprocessER ("erDiagram\nA B \x7b\n\x7d")).state.nameMapping ∧
      restoreText (preprocessER ("erDiagram\nA B \x7b\n\x7d")).state.nameMapping
        ("A_B") = "A B") ∧
    (noCrossSub (preprocessFlowchart
        ("flowchart TD\n\"A B\" --> \"C D\"")).state.nameMapping = true ∧
      (("C_D", "C D") : String × String) ∈
        (preprocessFlowchart ("flowchart TD\n\"A B\" --> \"C D\"")).state.nameMapping ∧
      restoreText (preprocessFlowchart
        ("flowchart TD\n\"A B\" --> \"C D\"")).state.nameMapping ("C_D") = "C D") :=
  ⟨⟨by decide, by decide,
    restoration_round_trip.1 ("erDiagram\nA B \x7b\n\x7d") ("A_B", "A B")
      (by decide) (by decide)⟩,
   ⟨by decide, by decide,
    restoration_round_trip.2 ("flowchart TD\n\"A B\" --> \"C D\"") ("C_D", "C D")
      (by decide) (by decide)⟩⟩

/-- C9.  Malformed-line passthrough: an entity-block line that splits into
fewer than two CSV fields is returned unchanged, with the allocator state
untouched (and, the functions being plain total definitions, no input line
can fail). -/
theorem malformed_attribute_passthrough :
    ∀ (st : AllocState) (line : String),
      (splitCSV (String.mk (trimChars line.data))).length < 2 →
      preprocessERAttribute st line = (line, st) := by
  intro st line h
  rw [preprocessERAttribute]
  split
  · rename_i p0 p1 rest heq
    rw [heq] at h
    simp at h
    omega
  · rfl

/-- Witness for C9: a one-field line passes through unchanged. -/
theorem malformed_attribute_passthrough_witness :
    (splitCSV (String.mk (trimChars ("hello world" : String).data))).length < 2 ∧
    preprocessERAttribute ⟨[], []⟩ ("hello world") = ("hello world", ⟨[], []⟩) :=
  ⟨by decide, malformed_attribute_passthrough ⟨[], []⟩ ("hello world") (by decide)⟩

/-- C10.  Flow-line tokenizer progress and termination: every iteration of
the scanning loop consumes at least one character of the remaining
suffix, so scanning with fuel equal to the line length (as
`preprocessFlowLine` does) is already the loop run to completion — any
larger fuel scans identically. -/
theorem flow_tokenizer_progress :
    ∀ (s : List Char) (f : Nat), s ≠ [] → s.length ≤ f →
      (flowStep s).2.length < s.length ∧ scanTokens f s = scanTokens s.length s := by
  intro s f hs hf
  exact ⟨flowStep_progress s hs,
    scanTokens_fuel_ext s.length s le_rfl f s.length hf le_rfl⟩

/-- Witness for C10: one concrete scanning step consumes the arrow. -/
theorem flow_tokenizer_progress_witness :
    (("--> x" : String).data ≠ [] ∧ ("--> x" : String).data.length ≤ 9) ∧
    ((flowStep ("--> x" : String).data).2.length < ("--> x" : String).data.length ∧
      scanTokens 9 ("--> x" : String).data =
        scanTokens ("--> x" : String).data.length ("--> x" : String).data) :=
  ⟨⟨by decide, by decide⟩,
   flow_tokenizer_progress (("--> x" : String).data) 9 (by decide) (by decide)⟩

/-- C2 counterexample: the claim's stability clause fails across
differing `minLength` arguments — within one pass, a call for display
name `ab` without `minLength` returns `ab`, while a second call for the
same display name with `minLength 4` returns the padded, different
identifier `ab__`. -/
theorem allocator_minLength_counterexample :
    runAlloc [(("ab" : String), (none : Option Nat)), ("ab", some 4)] = ["ab", "ab__"] ∧
    ("ab" : String) ≠ "ab__" :=
  ⟨by decide, by decide⟩

/-- C2 (amended).  Allocator uniqueness and stability: across any
sequence of `getUniqueId` calls in one pass, two calls returning the same
identifier carried the same display name, and two calls with the same
display name and the same `minLength` argument (both absent or both
equal) return the same identifier. -/
theorem allocator_unique_and_stable :
    ∀ (calls : List (String × Option Nat)) (i j : Nat) (di dj : String)
      (mi mj : Option Nat) (ri rj : String),
      calls[i]? = some (di, mi) → calls[j]? = some (dj, mj) →
      (runAlloc calls)[i]? = some ri → (runAlloc calls)[j]? = some rj →
      (ri = rj → di = dj) ∧ ((di, mi) = (dj, mj) → ri = rj) := by
  intro calls i j di dj mi mj ri rj hci hcj hri hrj
  constructor
  · intro hrr
    rcases Nat.lt_trichotomy i j with hij | hij | hij
    · exact runAllocAux_unique calls _ i j di dj mi mj ri rj hij hci hcj hri hrj hrr
    · subst hij
      rw [hci] at hcj
      injection hcj with hcj
      exact congrArg Prod.fst hcj
    · exact (runAllocAux_unique calls _ j i dj di mj mi rj ri hij hcj hci hrj hri
        hrr.symm).symm
  · intro hdd
    rcases Nat.lt_trichotomy i j with hij | hij | hij
    · exact runAllocAux_stable calls _ i j di mi hij hci (by rw [hcj, ← hdd]) ri rj hri hrj
    · subst hij
      rw [hri] at hrj
      injection hrj
    · exact (runAllocAux_stable calls _ j i dj mj hij hcj (by rw [hci, hdd]) rj ri
        hrj hri).symm

/-- Witness for the amended C2, on the call sequence
`a b`, `x`, `a b`: positions 0 and 2 return the same identifier. -/
theorem allocator_unique_and_stable_witness :
    (([(("a b" : String), (none : Option Nat)), ("x", none), ("a b", none)][0]? =
        some ("a b", none)) ∧
      ([(("a b" : String), (none : Option Nat)), ("x", none), ("a b", none)][2]? =
        some ("a b", none)) ∧
      (runAlloc [(("a b" : String), (none : Option Nat)), ("x", none),
        ("a b", none)])[0]? = some ("a_b") ∧
      (runAlloc [(("a b" : String), (none : Option Nat)), ("x", none),
        ("a b", none)])[2]? = some ("a_b")) ∧
    ((("a_b" : String) = "a_b" → ("a b" : String) = "a b") ∧
      ((("a b" : String), (none : Option Nat)) = ("a b", none) →
        ("a_b" : String) = "a_b")) :=
  ⟨⟨by decide, by decide, by decide, by decide⟩,
   allocator_unique_and_stable
     [(("a b" : String), (none : Option Nat)), ("x", none), ("a b", none)]
     0 2 ("a b") ("a b") none none ("a_b") ("a_b")
     (by decide) (by decide) (by decide) (by decide)⟩

/-- C4 counterexample: with source `erDiagram LR` followed by
`direction RL`, the returned direction is the later standalone
statement's token `RL`, not the declaration shorthand `LR` — the claim's
override direction is backwards. -/
theorem direction_shorthand_counterexample :
    (preprocessER ("erDiagram LR\ndirection RL")).direction = some ("RL") ∧
    some ("RL" : String) ≠ some ("LR") :=
  ⟨by decide, by decide⟩

/-- C4 (amended).  Direction capture over arbitrary ER sources: from
any state, a declaration line is rewritten to the bare `erDiagram` with
its shorthand token (when present) overwriting the captured direction;
a standalone direction statement is elided from the output in all
cases, only its token being captured; for every source the direction
returned to the caller is the fold of the per-line direction
assignments, last writer winning — so whenever a standalone statement
is the source's last direction assignment, its token is returned even
when an earlier declaration carried a shorthand: the shorthand does not
override the later statement. -/
theorem direction_capture_last_wins :
    (∀ (s : ERState) (line : String) (dopt : Option String),
      matchERDecl (trimChars line.data) = some dopt →
      stepER s line = { s with acc := s.acc ++ ["erDiagram"],
                               direction := dirApply s.direction dopt }) ∧
    (∀ (s : ERState) (line : String) (d : String),
      matchDirection (trimChars line.data) = some d →
      stepER s line = { s with direction := some d }) ∧
    (∀ code : String,
      (preprocessER code).direction =
        (splitLines code.data).foldl (fun a l => dirApply a (lineDirToken l)) none) ∧
    (∀ (code : String) (pre post : List (List Char)) (l : List Char) (d2 : String),
      splitLines code.data = pre ++ l :: post →
      matchDirection (trimChars l) = some d2 →
      (∀ l2 ∈ post, lineDirToken l2 = none) →
      (preprocessER code).direction = some d2) := by
  refine ⟨?_, ?_, ?_, ?_⟩
  · intro s line dopt h
    obtain ⟨c, t2, he, hc⟩ := matchERDecl_head _ _ h
    rw [stepER]
    rw [if_neg (erGuard_false _ c t2 he (by rw [hc]; decide))]
    split
    · rename_i dopt2 heq
      rw [h] at heq
      injection heq with heq2
      subst heq2
      cases dopt with
      | some d => rfl
      | none => rfl
    · rename_i heq
      rw [h] at heq
      exact absurd heq (by simp)
  · intro s line d h
    obtain ⟨c, t2, he, hc⟩ := matchDirection_head _ _ h
    have hde := matchERDecl_of_matchDirection _ _ h
    rw [stepER]
    rw [if_neg (erGuard_false _ c t2 he (by rw [hc]; decide))]
    split
    · rename_i dopt heq
      rw [hde] at heq
      exact absurd heq (by simp)
    · split
      · rename_i d2 heq
        rw [h] at heq
        injection heq with heq2
        subst heq2
        rfl
      · rename_i heq
        rw [h] at heq
        exact absurd heq (by simp)
  · intro code
    simp only [preprocessER]
    exact foldER_direction _ _
  · intro code pre post l d2 hsplit hdir hpost
    have hl := lineDirToken_of_matchDirection l d2 hdir
    simp only [preprocessER]
    rw [hsplit]
    rw [foldER_direction (pre ++ l :: post) ⟨false, none, ⟨[], []⟩, []⟩]
    rw [List.foldl_append]
    simp only [List.foldl_cons]
    rw [hl]
    exact foldDir_const post _ hpost

/-- Witness for the amended C4 on the counterexample source: the
standalone statement is elided with its token captured, and the
returned direction is `RL`, the later standalone statement's token,
not the declaration shorthand `LR`. -/
theorem direction_capture_last_wins_witness :
    (matchDirection (trimChars ("direction RL").data) = some ("RL") ∧
      stepER ⟨false, some ("LR"), ⟨[], []⟩, []⟩ ("direction RL") =
        ⟨false, some ("RL"), ⟨[], []⟩, []⟩) ∧
    (splitLines ("erDiagram LR\ndirection RL").data =
        [("erDiagram LR").data] ++ ("direction RL").data :: [] ∧
      (∀ l2 ∈ ([] : List (List Char)), lineDirToken l2 = none) ∧
      (preprocessER ("erDiagram LR\ndirection RL")).direction = some ("RL")) :=
  ⟨⟨by decide,
    direction_capture_last_wins.2.1 ⟨false, some ("LR"), ⟨[], []⟩, []⟩
      ("direction RL") ("RL") (by decide)⟩,
   ⟨by decide, by simp,
    direction_capture_last_wins.2.2.2 ("erDiagram LR\ndirection RL")
      [("erDiagram LR").data] [] (("direction RL").data) ("RL")
      (by decide) (by decide) (by simp)⟩⟩

/-- C5.  Sanitizer totality and shape: for every non-empty input,
`sanitizeName` returns a non-empty string of ASCII letters, digits and
underscores with no leading, trailing or doubled underscore, falling back
to the fixed token `unnamed` when the cleaned result is empty; as a plain
total function it never fails and is deterministic. -/
theorem sanitizer_shape :
    ∀ s : String, s ≠ "" →
      sanitizeName s ≠ "" ∧
      (∀ c ∈ (sanitizeName s).data, isAlnum c = true ∨ c = '_') ∧
      (sanitizeName s).data.head? ≠ some '_' ∧
      (sanitizeName s).data.getLast? ≠ some '_' ∧
      noAdjPair '_' (sanitizeName s).data = true ∧
      (cleanChars s.data = [] → sanitizeName s = "unnamed") := by
  intro s _
  by_cases hcl : cleanChars s.data = []
  · have hun : sanitizeName s = "unnamed" := by
      rw [sanitizeName, hcl]
      rfl
    rw [hun]
    refine ⟨by decide, by decide, by decide, by decide, by decide, fun _ => rfl⟩
  · have hmk : sanitizeName s = String.mk (cleanChars s.data) := by
      rw [sanitizeName, if_neg (by simpa [List.isEmpty_iff] using hcl)]
    rw [hmk]
    refine ⟨?_, ?_, ?_, ?_, ?_, fun h => absurd h hcl⟩
    · intro h
      exact hcl (congrArg String.data h)
    · intro c hc
      exact cleanChars_safe hc
    · exact cleanChars_head_ne _
    · exact cleanChars_getLast_ne _
    · exact cleanChars_noAdjPair _

/-- Witness for C5 at a name mixing umlauts, sharp s, spaces and
punctuation. -/
theorem sanitizer_shape_witness :
    ("Gebäude Straße!" : String) ≠ "" ∧
    (sanitizeName ("Gebäude Straße!") ≠ "" ∧
      (∀ c ∈ (sanitizeName ("Gebäude Straße!")).data, isAlnum c = true ∨ c = '_') ∧
      (sanitizeName ("Gebäude Straße!")).data.head? ≠ some '_' ∧
      (sanitizeName ("Gebäude Straße!")).data.getLast? ≠ some '_' ∧
      noAdjPair '_' (sanitizeName ("Gebäude Straße!")).data = true ∧
      (cleanChars ("Gebäude Straße!" : String).data = [] →
        sanitizeName ("Gebäude Straße!") = "unnamed")) :=
  ⟨by decide, sanitizer_shape ("Gebäude Straße!") (by decide)⟩

/-- C6.  Longest-match safety of the restorer: with identifiers `a` and
`ab` bound to different display names, restoring a text occurrence of
`ab` applies the `ab` mapping first (never its `a` prefix), so the result
is the `ab` display name with the `a` mapping applied to it afterwards —
exactly the `ab` display name whenever `a` does not occur inside it. -/
theorem restorer_longest_first :
    ∀ d1 d2 : String, d1 ≠ d2 →
      restoreText [("a", d1), ("ab", d2)] ("ab") = replaceAllStr ("a") d1 d2 ∧
      (substrB ("a" : String).data d2.data = false →
        restoreText [("a", d1), ("ab", d2)] ("ab") = d2) := by
  intro d1 d2 _
  have hsort : sortByLenDesc [(("a" : String), d1), ("ab", d2)] =
      [("ab", d2), ("a", d1)] := rfl
  have hstep1 : restoreStep ("ab") (("ab" : String), d2) = d2 :=
    restoreStep_self (p := (("ab" : String), d2)) (show ("ab" : String) ≠ "" by decide)
  have hmain : restoreText [(("a" : String), d1), ("ab", d2)] ("ab") =
      replaceAllStr ("a") d1 d2 := by
    rw [restoreText, hsort, List.foldl_cons, List.foldl_cons, List.foldl_nil, hstep1]
    rw [restoreStep]
    by_cases hsub : substrB ("a" : String).data d2.data = true
    · rw [if_pos hsub]
    · rw [if_neg (by simpa using hsub)]
      rw [replaceAllStr, replaceAllChars_of_not_substr (by decide)
        (by simpa using hsub), mkData_eq]
  refine ⟨hmain, fun hsub => ?_⟩
  rw [hmain, replaceAllStr, replaceAllChars_of_not_substr (by decide) hsub, mkData_eq]

/-- Witness for C6 with display names `X` and `Y`. -/
theorem restorer_longest_first_witness :
    ("X" : String) ≠ "Y" ∧
    (restoreText [("a", "X"), ("ab", "Y")] ("ab") = replaceAllStr ("a") ("X") ("Y") ∧
      (substrB ("a" : String).data ("Y" : String).data = false →
        restoreText [("a", "X"), ("ab", "Y")] ("ab") = "Y")) :=
  ⟨by decide, restorer_longest_first ("X") ("Y") (by decide)⟩

/-- Output equation of `preprocessERAttribute` on a well-formed split,
shared by the attribute-ordering and comment-handling claims. -/
theorem preprocessERAttribute_split (st : AllocState) (line p0 p1 : String)
    (rest : List String)
    (h : splitCSV (String.mk (trimChars line.data)) = p0 :: p1 :: rest) :
    preprocessERAttribute st line =
      (String.mk (indentOf line.data) ++ (getUniqueId st p0 (some (p0.length + 2))).1 ++
        " " ++ p1 ++ erAttrTail rest,
       (getUniqueId st p0 (some (p0.length + 2))).2) := by
  rw [preprocessERAttribute]
  split
  · rename_i q0 q1 qrest heq
    rw [h] at heq
    injection heq with h0 heq
    injection heq with h1 heq
    subst h0
    subst h1
    subst heq
    rfl
  · rename_i hno
    exact absurd h (hno p0 p1 rest)

/-- C3.  ER attribute output order: on every attribute line with at least
two CSV fields, the emitted line is the allocated identifier (padded to
the display name's length plus two) first, then the type, then the
optional key tag and comment — name and type transposed relative to the
user's name-first input. -/
theorem er_attribute_order :
    ∀ (st : AllocState) (line p0 p1 : String) (rest : List String),
      splitCSV (String.mk (trimChars line.data)) = p0 :: p1 :: rest →
      preprocessERAttribute st line =
        (String.mk (indentOf line.data) ++
          (getUniqueId st p0 (some (p0.length + 2))).1 ++ " " ++ p1 ++ erAttrTail rest,
         (getUniqueId st p0 (some (p0.length + 2))).2) :=
  fun st line p0 p1 rest h => preprocessERAttribute_split st line p0 p1 rest h

/-- Witness for C3: identifier before type on a key-tagged line. -/
theorem er_attribute_order_witness :
    splitCSV (String.mk (trimChars ("  Gebäude ID, int, PK" : String).data)) =
      ["Gebäude ID", "int", "PK"] ∧
    preprocessERAttribute ⟨[], []⟩ ("  Gebäude ID, int, PK") =
      (String.mk (indentOf ("  Gebäude ID, int, PK" : String).data) ++
        (getUniqueId ⟨[], []⟩ ("Gebäude ID")
          (some (("Gebäude ID" : String).length + 2))).1 ++ " " ++ "int" ++
        erAttrTail ["PK"],
       (getUniqueId ⟨[], []⟩ ("Gebäude ID")
         (some (("Gebäude ID" : String).length + 2))).2) :=
  ⟨by decide,
   er_attribute_order ⟨[], []⟩ ("  Gebäude ID, int, PK") ("Gebäude ID") ("int")
     ["PK"] (by decide)⟩

theorem erAttrTail_nonkey {p2 : String} (rest : List String)
    (hkey : isKeyTag p2 = false) :
    erAttrTail (p2 :: rest) =
      commentRequote (if rest = [] then String.mk (trimChars p2.data)
        else String.mk (trimChars (joinCS rest).data)) := by
  cases rest with
  | nil =>
    rw [erAttrTail]
    simp only [hkey, Bool.false_eq_true, if_false, List.length_cons, List.length_nil]
    rw [if_neg (by omega)]
    simp only [if_true]
    exact empty_append_str _
  | cons r rs =>
    rw [erAttrTail]
    simp only [hkey, Bool.false_eq_true, if_false, List.length_cons]
    rw [if_pos (by omega)]
    simp only [List.drop_succ_cons, List.drop_zero]
    rw [if_neg (by simp : ¬(r :: rs = []))]
    exact empty_append_str _

/-- C7 counterexample: on `A, int, x, y` the third field `x` is not a key
tag, yet it does not become part of the comment — the emitted comment is
only `y` (from `parts.slice(3)`), not `x, y` as the claim's
field-3-starts-the-comment reading requires. -/
theorem er_attr_comment_counterexample :
    (preprocessERAttribute ⟨[], []⟩ ("A, int, x, y")).1 = "A__ int \"y\"" ∧
    ("A__ int \"y\"" : String) ≠ "A__ int \"x, y\"" :=
  ⟨by decide, by decide⟩

/-- C7 (amended).  Key-tag and comment parsing: when the third CSV field
is not PK/FK/UK (case-insensitively), no key tag is emitted; the comment
is the third field itself only when the line has exactly three fields,
while with four or more fields the comment is fields four onward rejoined
with a comma-space and the non-key third field is discarded; the comment
is emitted with one layer of surrounding quotes stripped and re-applied,
commas inside quotes surviving because `splitCSV` does not split inside
double quotes.  The flagship line `Order Status, string, , "New, Shipped"`
(empty third field) yields no key tag and the re-quoted comment
`New, Shipped`. -/
theorem er_attr_nonkey_comment :
    ∀ (st : AllocState) (line p0 p1 p2 : String) (rest : List String),
      splitCSV (String.mk (trimChars line.data)) = p0 :: p1 :: p2 :: rest →
      isKeyTag p2 = false →
      preprocessERAttribute st line =
        (String.mk (indentOf line.data) ++
          (getUniqueId st p0 (some (p0.length + 2))).1 ++ " " ++ p1 ++
          commentRequote (if rest = [] then String.mk (trimChars p2.data)
            else String.mk (trimChars (joinCS rest).data)),
         (getUniqueId st p0 (some (p0.length + 2))).2) := by
  intro st line p0 p1 p2 rest h hkey
  rw [preprocessERAttribute_split st line p0 p1 (p2 :: rest) h,
    erAttrTail_nonkey rest hkey]

/-- Witness for the amended C7 at the flagship line: no key tag, and the
comment `New, Shipped` survives re-quoted with its embedded comma. -/
theorem er_attr_nonkey_comment_witness :
    (splitCSV (String.mk
        (trimChars ("Order Status, string, , \"New, Shipped\"" : String).data)) =
      ["Order Status", "string", "", "\"New, Shipped\""] ∧
      isKeyTag ("") = false ∧
      (preprocessERAttribute ⟨[], []⟩
        ("Order Status, string, , \"New, Shipped\"")).1 =
        "Order_Status__ string \"New, Shipped\"") ∧
    preprocessERAttribute ⟨[], []⟩ ("Order Status, string, , \"New, Shipped\"") =
      (String.mk (indentOf ("Order Status, string, , \"New, Shipped\"" : String).data) ++
        (getUniqueId ⟨[], []⟩ ("Order Status")
          (some (("Order Status" : String).length + 2))).1 ++ " " ++ "string" ++
        commentRequote (if (["\"New, Shipped\""] : List String) = [] then
          String.mk (trimChars ("" : String).data)
          else String.mk (trimChars (joinCS ["\"New, Shipped\""]).data)),
       (getUniqueId ⟨[], []⟩ ("Order Status")
         (some (("Order Status" : String).length + 2))).2) :=
  ⟨⟨by decide, by decide, by decide⟩,
   er_attr_nonkey_comment ⟨[], []⟩ ("Order Status, string, , \"New, Shipped\"")
     ("Order Status") ("string") ("") ["\"New, Shipped\""] (by decide) (by decide)⟩

/-- C8.  Flowchart label reuse: across any sequence of labeled-node
resolutions within one pass, two occurrences of the exact same label text
resolve to the identical identifier, so both occurrences render as the
same identifier/label pair in whichever shape syntax each token carries. -/
theorem flow_label_reuse :
    ∀ (labels : List String) (i j : Nat) (L ri rj : String) (shape : FlowShape),
      labels[i]? = some L → labels[j]? = some L →
      (runFlowIds ⟨[], [], []⟩ labels)[i]? = some ri →
      (runFlowIds ⟨[], [], []⟩ labels)[j]? = some rj →
      ri = rj ∧ ri ++ shapeWrap shape L = rj ++ shapeWrap shape L := by
  intro labels i j L ri rj shape hli hlj hri hrj
  have hmain : ri = rj := by
    rcases Nat.lt_trichotomy i j with hij | hij | hij
    · exact runFlowIds_same labels _ i j L hij hli hlj ri rj hri hrj
    · subst hij
      rw [hri] at hrj
      injection hrj
    · exact (runFlowIds_same labels _ j i L hij hlj hli rj ri hrj hri).symm
  exact ⟨hmain, by rw [hmain]⟩

/-- Witness for C8: the label `A B` mentioned at positions 0 and 2
resolves to the identifier `A_B` both times. -/
theorem flow_label_reuse_witness :
    ((["A B", "C", "A B"] : List String)[0]? = some ("A B") ∧
      (["A B", "C", "A B"] : List String)[2]? = some ("A B") ∧
      (runFlowIds ⟨[], [], []⟩ ["A B", "C", "A B"])[0]? = some ("A_B") ∧
      (runFlowIds ⟨[], [], []⟩ ["A B", "C", "A B"])[2]? = some ("A_B")) ∧
    (("A_B" : String) = "A_B" ∧
      ("A_B" : String) ++ shapeWrap FlowShape.rect ("A B") =
        "A_B" ++ shapeWrap FlowShape.rect ("A B")) :=
  ⟨⟨by decide, by decide, by decide, by decide⟩,
   flow_label_reuse ["A B", "C", "A B"] 0 2 ("A B") ("A_B") ("A_B") FlowShape.rect
     (by decide) (by decide) (by decide) (by decide)⟩

end SimpleChart
